import Mathlib

/-!
Verification of the extraction-and-normalization pipeline of
`read_meta.py` (book-symlinker).  The Python source is shallowly embedded:
pure helpers become Lean functions, the threaded phases become folds over
the task list in completion order, the caches become association lists
with Python-dict lookup/overwrite semantics, and the external AI endpoint
becomes an oracle parameter returning either a response map or `none`
(request error / unparsable payload).
-/

set_option autoImplicit false

namespace ReadMeta

/-! ## Association lists with Python-dict semantics

A Python `dict` is modelled as a `List (α × β)` where assignment prepends
the new binding and lookup returns the most recently assigned value
(so later assignments shadow earlier ones, as in `d[k] = v`). -/

/-- Lookup of `d[k]`: first (most recent) binding wins. -/
def alook {α β : Type} [DecidableEq α] : List (α × β) → α → Option β
  | [], _ => none
  | (k, v) :: t, a => if k = a then some v else alook t a

/-- Assignment `d[k] = v`. -/
def aset {α β : Type} [DecidableEq α] (d : List (α × β)) (k : α) (v : β) :
    List (α × β) :=
  (k, v) :: d

/-- Python `d.update(m)`: every binding of `m` is assigned into `d`,
in order, so later bindings of `m` win over earlier ones and over `d`. -/
def dictUpdate {α β : Type} [DecidableEq α] (d m : List (α × β)) :
    List (α × β) :=
  m.foldl (fun acc kv => aset acc kv.1 kv.2) d

@[simp] theorem alook_nil {α β : Type} [DecidableEq α] (a : α) :
    alook ([] : List (α × β)) a = none := rfl

@[simp] theorem alook_cons {α β : Type} [DecidableEq α]
    (k : α) (v : β) (t : List (α × β)) (a : α) :
    alook ((k, v) :: t) a = if k = a then some v else alook t a := rfl

@[simp] theorem alook_aset {α β : Type} [DecidableEq α]
    (d : List (α × β)) (k : α) (v : β) (a : α) :
    alook (aset d k v) a = if k = a then some v else alook d a := rfl

/-! ## String helpers (Python `in`, `strip`, `os.path.splitext`) -/

/-- Check that `n` occurs at the start of `h` (list version). -/
def pfxOf : List Char → List Char → Bool
  | [], _ => true
  | _ :: _, [] => false
  | a :: as, b :: bs => a = b && pfxOf as bs

/-- Check that `n` occurs contiguously somewhere in `h` (list version). -/
def subOf (n : List Char) : List Char → Bool
  | [] => pfxOf n []
  | c :: t => pfxOf n (c :: t) || subOf n t

/-- Python `needle in hay` on strings. -/
def strIn (needle hay : String) : Bool :=
  subOf needle.data hay.data

/-- Python whitespace (the characters stripped by `str.strip()`):
space, tab, newline, carriage return, vertical tab, form feed. -/
def isPySpace (c : Char) : Bool :=
  c.toNat = 32 || (9 ≤ c.toNat && c.toNat ≤ 13)

/-- Python `s.strip()`: remove leading and trailing whitespace. -/
def pyStrip (s : String) : String :=
  String.mk
    (((s.data.dropWhile isPySpace).reverse.dropWhile isPySpace).reverse)

/-- ASCII lowering of one character (Python `str.lower()` restricted to
ASCII, which covers every comparison the source performs). -/
def lowerChar (c : Char) : Char :=
  if 65 ≤ c.toNat && c.toNat ≤ 90 then Char.ofNat (c.toNat + 32) else c

/-- Python `s.lower()` (ASCII). -/
def pyLower (s : String) : String :=
  String.mk (s.data.map lowerChar)

/-- Index of the last `'.'` in a character list, if any. -/
def lastDotIdx : List Char → Option Nat
  | [] => none
  | c :: t =>
    match lastDotIdx t with
    | some i => some (i + 1)
    | none => if c = '.' then some 0 else none

/-- Stem of `os.path.splitext(name)` for a bare file name: everything
before the last dot, unless all characters before that dot are
themselves dots (then the name is returned whole). -/
def splitextStem (name : String) : String :=
  match lastDotIdx name.data with
  | none => name
  | some i =>
    if (name.data.take i).all (fun c => c = '.') then name
    else String.mk (name.data.take i)

/-! ## Data model (records, caches, rules) -/

/-- Raw metadata produced by a format-specific extractor
(`extract_epub_metadata` / `extract_pdf_metadata`):
`{title, authors, publisher}`, with `publisher = None` when absent. -/
structure RawExtract where
  title : String
  authors : List String
  publisher : Option String
  deriving DecidableEq, Repr

/-- A record as it sits in `raw_metadata_list`: raw metadata plus the
`filename` key added by `process_file`. -/
structure BookMeta where
  title : String
  authors : List String
  publisher : Option String
  filename : String
  deriving DecidableEq, Repr

/-- One entry of the metadata cache: `{'mtime': ..., 'metadata': ...}`. -/
structure CacheEntry where
  mtime : Int
  metadata : BookMeta
  deriving DecidableEq, Repr

/-- The metadata cache, keyed by file path. -/
abbrev MetaCache := List (String × CacheEntry)

/-- The publisher cache / publisher map, keyed by the raw publisher
value (`none` is Python's `None`). -/
abbrev PubCache := List (Option String × String)

/-- One normalization rule `(keywords, canonical_name)` as loaded by
`load_rules_from_csv`. -/
abbrev PubRule := List String × String

/-- The per-run environment of a single file: its path and basename, the
mtime observed by the cache check (`none` = `FileNotFoundError`), the
result the format extractor would produce (`none` = failure or
unrecognized format), and the mtime observed at commit time. -/
structure FileEnv where
  path : String
  filename : String
  checkMtime : Option Int
  extractResult : Option RawExtract
  commitMtime : Option Int
  deriving DecidableEq, Repr

/-! ## Embedded source functions -/

/-- The `bad_substrings` list of `is_bad_title`. -/
def bad_substrings : List String :=
  [".indd", ".docx", ".doc", ".pdf", ".qxd", "microsoft word -"]

/-- Embedding of `is_bad_title` (read_meta.py:79-98): a title is bad if
it is empty or whitespace-only, is the absent marker `n/a` (case
folded), or contains one of the known-bad substrings. -/
def is_bad_title (title : String) : Bool :=
  if title = "" || pyStrip title = "" then true
  else
    let lower_title := pyLower title
    if lower_title = "n/a" then true
    else bad_substrings.any (fun sub => strIn sub lower_title)

/-- Result of `check_file_cache`: `('HIT', path, metadata)` or
`('MISS', path, None)`. -/
inductive CheckResult where
  | hit (m : BookMeta)
  | miss
  deriving DecidableEq, Repr

/-- Embedding of `check_file_cache` (read_meta.py:203-217): `getmtime`
is the `checkMtime` observation (`none` when the file has disappeared,
i.e. `FileNotFoundError` is caught and MISS returned). -/
def check_file_cache (observedMtime : Option Int)
    (cached_entry : Option CacheEntry) : CheckResult :=
  match observedMtime with
  | none => .miss
  | some current_mtime =>
    match cached_entry with
    | some e => if e.mtime = current_mtime then .hit e.metadata else .miss
    | none => .miss

/-- Embedding of `process_file` (read_meta.py:190-201): the extension
dispatch and the parser are the opaque `extractResult` capability; on
success the file's basename is added as `filename`. -/
def process_file (f : FileEnv) : Option BookMeta :=
  match f.extractResult with
  | some r => some ⟨r.title, r.authors, r.publisher, f.filename⟩
  | none => none

/-- Match target of the resolver loop (read_meta.py:342):
`name.lower() if name else "null"` — both `None` and `""` are falsy. -/
def matchTarget (name : Option String) : String :=
  match name with
  | some s => if s = "" then "null" else pyLower s
  | none => "null"

/-- Inner keyword loop of the rule matcher (read_meta.py:345-347):
`if kw in match_target and len(kw) > best_match_len`. -/
def bestKw (target : String) (canonical : String) :
    Nat × Option String → List String → Nat × Option String
  | acc, [] => acc
  | acc, kw :: rest =>
    bestKw target canonical
      (if strIn kw target && decide (acc.1 < kw.length) then
        (kw.length, some canonical)
      else acc) rest

/-- Outer rule loop of the rule matcher (read_meta.py:344-347). -/
def bestRuleAux (target : String) :
    Nat × Option String → List PubRule → Nat × Option String
  | acc, [] => acc
  | acc, (keywords, canonical) :: rest =>
    bestRuleAux target (bestKw target canonical acc keywords) rest

/-- `best_match_len, best_canonical` after the rule loop, starting from
`0, None` (read_meta.py:343-347). -/
def bestRule (rules : List PubRule) (target : String) :
    Nat × Option String :=
  bestRuleAux target (0, none) rules

/-- State threaded through the resolver loop (read_meta.py:333-351):
`publisher_map`, `publisher_cache`, `publishers_for_ai`. -/
structure ResolveState where
  pmap : PubCache
  pcache : PubCache
  pending : List (Option String)
  deriving DecidableEq, Repr

/-- One iteration of `for name in all_publishers` (read_meta.py:337-351). -/
def resolveStep (rules : List PubRule) (st : ResolveState)
    (name : Option String) : ResolveState :=
  match alook st.pcache name with
  | some v => { st with pmap := aset st.pmap name v }
  | none =>
    match (bestRule rules (matchTarget name)).2 with
    | some best_canonical =>
      { st with pmap := aset st.pmap name best_canonical,
                pcache := aset st.pcache name best_canonical }
    | none => { st with pending := st.pending ++ [name] }

/-- The resolver loop over a list of names, threading the state. -/
def resolveList (rules : List PubRule) :
    List (Option String) → ResolveState → ResolveState
  | [], st => st
  | n :: rest, st => resolveList rules rest (resolveStep rules st n)

/-- The whole resolver loop starting from an empty `publisher_map`,
the loaded `publisher_cache` and an empty pending list. -/
def resolveAll (rules : List PubRule) (pc0 : PubCache)
    (names : List (Option String)) : ResolveState :=
  resolveList rules names ⟨[], pc0, []⟩

/-- Expected per-name outcome of one resolver iteration against a fixed
cache: the cached value if present, else the best rule canonical, else
`none` (pending).  Used to state the loop's correctness. -/
def resolveName (rules : List PubRule) (pc : PubCache)
    (n : Option String) : Option String :=
  match alook pc n with
  | some v => some v
  | none => (bestRule rules (matchTarget n)).2

/-- Structural worker for `chunks50`: `fuel` only bounds the recursion
depth (one unit per chunk suffices, `l.length` is always enough), so the
`0, rest` branch is unreachable for the fuel `chunks50` passes. -/
def chunksGo {α : Type} : Nat → List α → List (List α)
  | _, [] => []
  | 0, rest => [rest]
  | fuel + 1, a :: t => (a :: t.take 49) :: chunksGo fuel (t.drop 49)

/-- Chunking of the pending list into groups of 50
(`publisher_list[i:i + chunk_size]`, read_meta.py:118,129). -/
def chunks50 {α : Type} (l : List α) : List (List α) :=
  chunksGo l.length l

/-- Embedding of `normalize_publishers_batch_ai` (read_meta.py:112-155).
The network round-trip and response parsing of one chunk is the opaque
`oracle`; `none` models a `RequestException` or an unparsable payload,
in which case the chunk contributes nothing.  Successful chunk maps are
merged with `all_normalized_maps.update(...)`. -/
def normalize_publishers_batch_ai
    (oracle : List (Option String) → Option PubCache)
    (publisher_list : List (Option String)) : PubCache :=
  (chunks50 publisher_list).foldl
    (fun all_normalized_maps chunk =>
      dictUpdate all_normalized_maps ((oracle chunk).getD []))
    []

/-! ## The pipeline (`main`, read_meta.py:219-443) -/

/-- The command-line options relevant to the pipeline. -/
structure RunConfig where
  forceReload : Bool
  forceNormalize : Bool
  useAI : Bool
  hasApiKey : Bool
  hasPromptFile : Bool
  deriving DecidableEq, Repr

/-- One entry of the final catalog (read_meta.py:381). -/
structure CatEntry where
  title : String
  authors : List String
  publisher : Option String
  publisher_normalized : Option String
  deriving DecidableEq, Repr

/-- Assembly of one catalog entry (read_meta.py:373-381):
`publisher_map.get(publisher, publisher)` plus the bad-title fallback to
the basename without extension. -/
def assembleEntry (pm : PubCache) (bm : BookMeta) : CatEntry :=
  let normalized : Option String :=
    match alook pm bm.publisher with
    | some v => some v
    | none => bm.publisher
  let title :=
    if is_bad_title bm.title then splitextStem bm.filename else bm.title
  ⟨title, bm.authors, bm.publisher, normalized⟩

/-- Step 3 of `main`: `final_metadata` built by dict assignment keyed on
`filename` (read_meta.py:372-381). -/
def buildCatalog (pm : PubCache) (raw : List BookMeta) :
    List (String × CatEntry) :=
  raw.foldl (fun cat bm => aset cat bm.filename (assembleEntry pm bm)) []

/-- HIT outcome of the cache check for one file, as fed into
`raw_metadata_list` (read_meta.py:297-300). -/
def hitFun (mc0 : MetaCache) (f : FileEnv) : Option BookMeta :=
  match check_file_cache f.checkMtime (alook mc0 f.path) with
  | .hit m => some m
  | .miss => none

/-- MISS outcome of the cache check for one file. -/
def missFun (mc0 : MetaCache) (f : FileEnv) : Bool :=
  check_file_cache f.checkMtime (alook mc0 f.path) = .miss

/-- Cache-check phase, HIT side (read_meta.py:288-305): the records of
the files whose cache entry is still valid, in completion order. -/
def hitsOf (cfg : RunConfig) (files : List FileEnv) (mc0 : MetaCache) :
    List BookMeta :=
  if cfg.forceReload then []
  else files.filterMap (hitFun mc0)

/-- Cache-check phase, MISS side: `files_to_process`. -/
def toProcessOf (cfg : RunConfig) (files : List FileEnv)
    (mc0 : MetaCache) : List FileEnv :=
  if cfg.forceReload then files
  else files.filter (missFun mc0)

/-- Commit of one finished extraction task (read_meta.py:316-322): on
success the record is appended and the cache entry is overwritten with
the mtime taken *now*; a failed `getmtime` (file vanished) skips the
cache write; a failed extraction commits nothing. -/
def commitOne (mc : MetaCache) (f : FileEnv) : MetaCache :=
  match process_file f with
  | some bm =>
    match f.commitMtime with
    | some mtime => aset mc f.path ⟨mtime, bm⟩
    | none => mc
  | none => mc

/-- Extraction phase (read_meta.py:308-327): each task of
`files_to_process` (in completion order) yields its record, if any, and
commits its cache entry. -/
def extractPhase (mc0 : MetaCache) :
    List FileEnv → List BookMeta × MetaCache
  | [] => ([], mc0)
  | f :: rest =>
    let res := extractPhase (commitOne mc0 f) rest
    ((process_file f).toList ++ res.1, res.2)

/-- `raw_metadata_list` after both phases: cache hits then freshly
extracted records. -/
def rawRecords (cfg : RunConfig) (files extOrd : List FileEnv)
    (mc0 : MetaCache) : List BookMeta :=
  hitsOf cfg files mc0 ++ (extractPhase mc0 extOrd).1

/-- Everything `main` leaves behind: the two in-memory caches as saved
by the `finally` block, the final catalog, the paths handed to the
extraction pool, `publisher_map`, `publishers_for_ai`, and the names
actually sent to the AI endpoint. -/
structure RunResult where
  metaCache : MetaCache
  pubCache : PubCache
  pubMap : PubCache
  catalog : List (String × CatEntry)
  toProcess : List String
  pendingAI : List (Option String)
  aiSent : List (Option String)
  deriving DecidableEq, Repr

/-- The in-memory publisher cache the run starts from
(read_meta.py:272-276): empty under `--force-normalize`, else the loaded
durable cache. -/
def pc0Of (cfg : RunConfig) (pcFile : PubCache) : PubCache :=
  if cfg.forceNormalize then [] else pcFile

/-- `all_publishers` (read_meta.py:331): the distinct raw publisher
values of `raw_metadata_list` (a Python set; modelled as a deduplicated
list, resolution being order-independent per name). -/
def allPublishersOf (cfg : RunConfig) (files extOrd : List FileEnv)
    (mc0 : MetaCache) : List (Option String) :=
  ((rawRecords cfg files extOrd mc0).map (fun m => m.publisher)).dedup

/-- The resolver state after the rule/cache loop (read_meta.py:333-351). -/
def stOf (cfg : RunConfig) (files extOrd : List FileEnv)
    (mc0 : MetaCache) (pcFile : PubCache) (rules : List PubRule) :
    ResolveState :=
  resolveAll rules (pc0Of cfg pcFile) (allPublishersOf cfg files extOrd mc0)

/-- Whether the external fallback actually runs (read_meta.py:354-362):
pending names exist, `--ai` given, an API key and a prompt file were
found. -/
def aiRanOf (cfg : RunConfig) (files extOrd : List FileEnv)
    (mc0 : MetaCache) (pcFile : PubCache) (rules : List PubRule) : Bool :=
  cfg.useAI && cfg.hasApiKey && cfg.hasPromptFile &&
    !(stOf cfg files extOrd mc0 pcFile rules).pending.isEmpty

/-- `ai_results` (read_meta.py:353-361). -/
def aiResultsOf (cfg : RunConfig) (files extOrd : List FileEnv)
    (mc0 : MetaCache) (pcFile : PubCache) (rules : List PubRule)
    (oracle : List (Option String) → Option PubCache) : PubCache :=
  if aiRanOf cfg files extOrd mc0 pcFile rules then
    normalize_publishers_batch_ai oracle
      (stOf cfg files extOrd mc0 pcFile rules).pending
  else []

/-- The pipeline of `main` (read_meta.py:271-443) with an explicit
extraction completion order `extOrd` (a reordering of
`files_to_process`; the caller of `runPipeline` passes the submission
order).  `files` is the directory listing with each file's observed
behaviour, `mc0File` / `pcFile` the loaded durable caches, `oracle` the
external endpoint. -/
def runPipelineOrd (cfg : RunConfig) (files extOrd : List FileEnv)
    (mc0File : MetaCache) (pcFile : PubCache) (rules : List PubRule)
    (oracle : List (Option String) → Option PubCache) : RunResult :=
  { metaCache := (extractPhase mc0File extOrd).2
    pubCache := dictUpdate (stOf cfg files extOrd mc0File pcFile rules).pcache
      (aiResultsOf cfg files extOrd mc0File pcFile rules oracle)
    pubMap := dictUpdate (stOf cfg files extOrd mc0File pcFile rules).pmap
      (aiResultsOf cfg files extOrd mc0File pcFile rules oracle)
    catalog := buildCatalog
      (dictUpdate (stOf cfg files extOrd mc0File pcFile rules).pmap
        (aiResultsOf cfg files extOrd mc0File pcFile rules oracle))
      (rawRecords cfg files extOrd mc0File)
    toProcess := extOrd.map (fun f => f.path)
    pendingAI := (stOf cfg files extOrd mc0File pcFile rules).pending
    aiSent := if aiRanOf cfg files extOrd mc0File pcFile rules then
      (stOf cfg files extOrd mc0File pcFile rules).pending else [] }

/-- The pipeline with extraction tasks completing in submission order. -/
def runPipeline (cfg : RunConfig) (files : List FileEnv)
    (mc0File : MetaCache) (pcFile : PubCache) (rules : List PubRule)
    (oracle : List (Option String) → Option PubCache) : RunResult :=
  runPipelineOrd cfg files (toProcessOf cfg files mc0File)
    mc0File pcFile rules oracle

/-! ## Dictionary lemmas -/

theorem alook_eq_some_mem {α β : Type} [DecidableEq α]
    {l : List (α × β)} {k : α} {v : β} (h : alook l k = some v) :
    (k, v) ∈ l := by
  induction l with
  | nil => simp [alook] at h
  | cons kv t ih =>
    obtain ⟨a, b⟩ := kv
    by_cases hk : a = k
    · subst hk
      rw [alook_cons, if_pos rfl] at h
      injection h with h
      subst h
      exact List.mem_cons_self _ _
    · rw [alook_cons, if_neg hk] at h
      exact List.mem_cons_of_mem _ (ih h)

theorem alook_dictUpdate_of_no_key {α β : Type} [DecidableEq α]
    {m : List (α × β)} (d : List (α × β)) {k : α}
    (h : ∀ kv ∈ m, kv.1 ≠ k) :
    alook (dictUpdate d m) k = alook d k := by
  induction m generalizing d with
  | nil => rfl
  | cons kv t ih =>
    obtain ⟨a, b⟩ := kv
    have hstep : alook (aset d a b) k = alook d k := by
      have : a ≠ k := h (a, b) (List.mem_cons_self _ _)
      simp [aset, this]
    calc alook (dictUpdate d ((a, b) :: t)) k
        = alook (dictUpdate (aset d a b) t) k := rfl
      _ = alook (aset d a b) k :=
          ih _ (fun x hx => h x (List.mem_cons_of_mem _ hx))
      _ = alook d k := hstep

theorem alook_dictUpdate_of_mem {α β : Type} [DecidableEq α]
    {m : List (α × β)} (d : List (α × β)) {k : α} {v : β}
    (hnd : (m.map Prod.fst).Nodup) (hm : (k, v) ∈ m) :
    alook (dictUpdate d m) k = some v := by
  induction m generalizing d with
  | nil => cases hm
  | cons kv t ih =>
    simp only [List.map_cons, List.nodup_cons] at hnd
    rcases List.mem_cons.mp hm with heq | ht
    · subst heq
      have hnk : ∀ x ∈ t, x.1 ≠ k := by
        intro x hx he
        exact hnd.1 (List.mem_map.mpr ⟨x, hx, he⟩)
      calc alook (dictUpdate d ((k, v) :: t)) k
          = alook (dictUpdate (aset d k v) t) k := rfl
        _ = alook (aset d k v) k := alook_dictUpdate_of_no_key _ hnk
        _ = some v := by simp [aset]
    · exact ih (aset d kv.1 kv.2) hnd.2 ht

theorem alook_perm {α β : Type} [DecidableEq α]
    {l₁ l₂ : List (α × β)} (h : l₁.Perm l₂) :
    (l₁.map Prod.fst).Nodup → ∀ k, alook l₁ k = alook l₂ k := by
  induction h with
  | nil => intro _ _; rfl
  | cons x _ ih =>
    intro hnd k
    obtain ⟨a, b⟩ := x
    simp only [List.map_cons, List.nodup_cons] at hnd
    by_cases hk : a = k <;> simp [alook_cons, hk, ih hnd.2 k]
  | swap x y t =>
    intro hnd k
    obtain ⟨a, b⟩ := x
    obtain ⟨c, d⟩ := y
    simp only [List.map_cons, List.nodup_cons, List.mem_cons] at hnd
    have hca : c ≠ a := fun he => hnd.1 (Or.inl he)
    by_cases h1 : c = k <;> by_cases h2 : a = k <;>
      simp_all [alook_cons]
  | trans p₁ _ ih₁ ih₂ =>
    intro hnd k
    exact (ih₁ hnd k).trans (ih₂ ((p₁.map Prod.fst).nodup hnd) k)

/-! ## Substring characterization -/

theorem pfxOf_iff {n h : List Char} :
    pfxOf n h = true ↔ ∃ rest, h = n ++ rest := by
  induction n generalizing h with
  | nil => simp [pfxOf]
  | cons a as ih =>
    cases h with
    | nil =>
      simp [pfxOf]
    | cons b bs =>
      simp only [pfxOf, Bool.and_eq_true, decide_eq_true_eq, ih,
        List.cons_append, List.cons.injEq]
      constructor
      · rintro ⟨rfl, rest, rfl⟩; exact ⟨rest, rfl, rfl⟩
      · rintro ⟨rest, rfl, rfl⟩; exact ⟨rfl, rest, rfl⟩

theorem subOf_iff {n h : List Char} :
    subOf n h = true ↔ ∃ pre post, h = pre ++ n ++ post := by
  induction h with
  | nil =>
    simp only [subOf, pfxOf_iff]
    constructor
    · rintro ⟨rest, hr⟩
      rcases List.append_eq_nil.mp hr.symm with ⟨rfl, rfl⟩
      exact ⟨[], [], rfl⟩
    · rintro ⟨pre, post, hp⟩
      rcases List.append_eq_nil.mp hp.symm with ⟨h1, rfl⟩
      rcases List.append_eq_nil.mp h1 with ⟨rfl, rfl⟩
      exact ⟨[], rfl⟩
  | cons c t ih =>
    simp only [subOf, Bool.or_eq_true, pfxOf_iff, ih]
    constructor
    · rintro (⟨rest, hr⟩ | ⟨pre, post, rfl⟩)
      · exact ⟨[], rest, by simp [hr]⟩
      · exact ⟨c :: pre, post, rfl⟩
    · rintro ⟨pre, post, hp⟩
      cases pre with
      | nil => exact Or.inl ⟨post, by simpa using hp⟩
      | cons x xs =>
        simp only [List.cons_append, List.cons.injEq] at hp
        exact Or.inr ⟨xs, post, hp.2⟩

theorem strIn_iff {n h : String} :
    strIn n h = true ↔ ∃ pre post, h.data = pre ++ n.data ++ post :=
  subOf_iff

/-! ## Chunking lemmas -/

theorem chunksGo_flatten {α : Type} :
    ∀ (fuel : Nat) (l : List α), l.length ≤ fuel →
      (chunksGo fuel l).flatten = l := by
  intro fuel
  induction fuel with
  | zero =>
    intro l hl
    have : l = [] := List.eq_nil_of_length_eq_zero (Nat.le_zero.mp hl)
    subst this; rfl
  | succ n ih =>
    intro l hl
    cases l with
    | nil => rfl
    | cons a t =>
      simp only [chunksGo, List.flatten_cons]
      have ht : (t.drop 49).length ≤ n := by
        simp only [List.length_drop]
        simp only [List.length_cons] at hl
        omega
      rw [ih _ ht, List.cons_append, List.take_append_drop]

theorem chunks50_flatten {α : Type} (l : List α) :
    (chunks50 l).flatten = l :=
  chunksGo_flatten l.length l le_rfl

theorem mem_of_mem_chunks50 {α : Type} {l : List α} {c : List α}
    {a : α} (hc : c ∈ chunks50 l) (ha : a ∈ c) : a ∈ l := by
  rw [← chunks50_flatten l]
  exact List.mem_flatten.mpr ⟨c, hc, ha⟩

theorem chunks50_nodup {α : Type} {l : List α} (h : l.Nodup)
    {c : List α} (hc : c ∈ chunks50 l) : c.Nodup := by
  rw [← chunks50_flatten l] at h
  exact (List.nodup_flatten.mp h).1 c hc

theorem chunks50_disjoint {α : Type} {l : List α} (h : l.Nodup)
    {c₁ c₂ : List α} (hc₁ : c₁ ∈ chunks50 l) (hc₂ : c₂ ∈ chunks50 l)
    {a : α} (ha₁ : a ∈ c₁) (ha₂ : a ∈ c₂) : c₁ = c₂ := by
  rw [← chunks50_flatten l] at h
  have hpw := (List.nodup_flatten.mp h).2
  by_contra hne
  rcases List.mem_iff_get.mp hc₁ with ⟨i, hi⟩
  rcases List.mem_iff_get.mp hc₂ with ⟨j, hj⟩
  rcases Nat.lt_trichotomy i.val j.val with hij | hij | hij
  · have := List.pairwise_iff_get.mp hpw i j (by omega)
    rw [hi, hj] at this
    exact this ha₁ ha₂
  · exact hne (by rw [← hi, ← hj]; congr 1; exact Fin.ext hij)
  · have := List.pairwise_iff_get.mp hpw j i (by omega)
    rw [hi, hj] at this
    exact this ha₂ ha₁

/-! ## Rule matcher: longest-keyword-match facts -/

theorem bestKw_fst_le (t c : String) (acc : Nat × Option String)
    (kws : List String) : acc.1 ≤ (bestKw t c acc kws).1 := by
  induction kws generalizing acc with
  | nil => exact le_rfl
  | cons kw rest ih =>
    simp only [bestKw]
    by_cases h : (strIn kw t && decide (acc.1 < kw.length)) = true
    · rw [if_pos h]
      have hlt : acc.1 < kw.length := by
        simp only [Bool.and_eq_true, decide_eq_true_eq] at h
        exact h.2
      exact le_trans (le_of_lt hlt) (ih (kw.length, some c))
    · rw [if_neg h]
      exact ih acc

theorem bestKw_ge_match {t : String} (c : String)
    (acc : Nat × Option String) {kws : List String} {kw : String}
    (hkw : kw ∈ kws) (hm : strIn kw t = true) :
    kw.length ≤ (bestKw t c acc kws).1 := by
  induction kws generalizing acc with
  | nil => cases hkw
  | cons kw0 rest ih =>
    simp only [bestKw]
    rcases List.mem_cons.mp hkw with rfl | hmem
    · by_cases h : (strIn kw t && decide (acc.1 < kw.length)) = true
      · rw [if_pos h]
        exact bestKw_fst_le t c (kw.length, some c) rest
      · rw [if_neg h]
        simp only [Bool.and_eq_true, decide_eq_true_eq, not_and,
          Nat.not_lt] at h
        exact le_trans (h hm) (bestKw_fst_le t c acc rest)
    · by_cases h : (strIn kw0 t && decide (acc.1 < kw0.length)) = true
      · rw [if_pos h]; exact ih (kw0.length, some c) hmem
      · rw [if_neg h]; exact ih acc hmem

theorem bestKw_cases (t c : String) (acc : Nat × Option String)
    (kws : List String) :
    bestKw t c acc kws = acc ∨
      ∃ kw, kw ∈ kws ∧ strIn kw t = true ∧
        (bestKw t c acc kws).1 = kw.length ∧
        (bestKw t c acc kws).2 = some c ∧ 0 < kw.length := by
  induction kws generalizing acc with
  | nil => exact Or.inl rfl
  | cons kw0 rest ih =>
    simp only [bestKw]
    by_cases h : (strIn kw0 t && decide (acc.1 < kw0.length)) = true
    · rw [if_pos h]
      simp only [Bool.and_eq_true, decide_eq_true_eq] at h
      rcases ih (kw0.length, some c) with he | ⟨kw, hmem, hm, h1, h2, h3⟩
      · refine Or.inr ⟨kw0, List.mem_cons_self _ _, h.1, ?_, ?_, ?_⟩
        · rw [he]
        · rw [he]
        · omega
      · exact Or.inr ⟨kw, List.mem_cons_of_mem _ hmem, hm, h1, h2, h3⟩
    · rw [if_neg h]
      rcases ih acc with he | ⟨kw, hmem, hm, h1, h2, h3⟩
      · exact Or.inl he
      · exact Or.inr ⟨kw, List.mem_cons_of_mem _ hmem, hm, h1, h2, h3⟩

theorem bestRuleAux_fst_le (t : String) (acc : Nat × Option String)
    (rules : List PubRule) : acc.1 ≤ (bestRuleAux t acc rules).1 := by
  induction rules generalizing acc with
  | nil => exact le_rfl
  | cons r rest ih =>
    obtain ⟨kws, c⟩ := r
    exact le_trans (bestKw_fst_le t c acc kws) (ih _)

theorem bestRuleAux_ge_match {t : String} (acc : Nat × Option String)
    {rules : List PubRule} {kws : List String} {c kw : String}
    (hr : (kws, c) ∈ rules) (hkw : kw ∈ kws) (hm : strIn kw t = true) :
    kw.length ≤ (bestRuleAux t acc rules).1 := by
  induction rules generalizing acc with
  | nil => cases hr
  | cons r rest ih =>
    obtain ⟨kws0, c0⟩ := r
    rcases List.mem_cons.mp hr with he | hmem
    · injection he with h1 h2
      subst h1; subst h2
      exact le_trans (bestKw_ge_match c acc hkw hm)
        (bestRuleAux_fst_le t _ rest)
    · exact ih (bestKw t c0 acc kws0) hmem

theorem bestRuleAux_cases (t : String) (acc : Nat × Option String)
    (rules : List PubRule) :
    bestRuleAux t acc rules = acc ∨
      ∃ kws c, (kws, c) ∈ rules ∧ ∃ kw, kw ∈ kws ∧
        strIn kw t = true ∧ (bestRuleAux t acc rules).1 = kw.length ∧
        (bestRuleAux t acc rules).2 = some c ∧ 0 < kw.length := by
  induction rules generalizing acc with
  | nil => exact Or.inl rfl
  | cons r rest ih =>
    obtain ⟨kws0, c0⟩ := r
    simp only [bestRuleAux]
    rcases ih (bestKw t c0 acc kws0) with he | ⟨kws, c, hr, kw, hkw, hm, h1, h2, h3⟩
    · rcases bestKw_cases t c0 acc kws0 with hk | ⟨kw, hkw, hm, h1, h2, h3⟩
      · rw [he, hk]
        exact Or.inl rfl
      · refine Or.inr ⟨kws0, c0, List.mem_cons_self _ _, kw, hkw, hm, ?_, ?_, h3⟩
        · rw [he, h1]
        · rw [he, h2]
    · exact Or.inr ⟨kws, c, List.mem_cons_of_mem _ hr, kw, hkw, hm, h1, h2, h3⟩

/-- Soundness and maximality of the rule loop: a chosen canonical name
comes from a rule with a matching keyword of maximal length among all
matching keywords of all rules. -/
theorem bestRule_some_spec {rules : List PubRule} {t c : String}
    (h : (bestRule rules t).2 = some c) :
    ∃ kws, (kws, c) ∈ rules ∧ ∃ kw, kw ∈ kws ∧ strIn kw t = true ∧
      0 < kw.length ∧
      ∀ kws2 c2, (kws2, c2) ∈ rules → ∀ kw2 ∈ kws2,
        strIn kw2 t = true → kw2.length ≤ kw.length := by
  rcases bestRuleAux_cases t (0, none) rules with
    he | ⟨kws, c2, hr, kw, hkw, hm, h1, h2, h3⟩
  · rw [bestRule, he] at h
    cases h
  · rw [bestRule, h2] at h
    injection h with h
    subst h
    refine ⟨kws, hr, kw, hkw, hm, h3, ?_⟩
    intro kws2 cc hkr kw2 hkw2 hm2
    have hge := bestRuleAux_ge_match (0, none) hkr hkw2 hm2
    rw [h1] at hge
    exact hge

/-- Completeness of the rule loop: a nonempty matching keyword forces a
canonical name to be chosen. -/
theorem bestRule_isSome_of_match {rules : List PubRule}
    {t kw c : String} {kws : List String}
    (hr : (kws, c) ∈ rules) (hkw : kw ∈ kws) (hm : strIn kw t = true)
    (hpos : 0 < kw.length) : ((bestRule rules t).2).isSome = true := by
  rcases bestRuleAux_cases t (0, none) rules with
    he | ⟨_, _, _, _, _, _, _, h2, _⟩
  · exfalso
    have hge := bestRuleAux_ge_match (0, none) hr hkw hm
    rw [he] at hge
    omega
  · rw [bestRule, h2]
    rfl

/-- When no canonical name is chosen, no rule has a nonempty matching
keyword. -/
theorem bestRule_none_spec {rules : List PubRule} {t : String}
    (h : (bestRule rules t).2 = none) :
    ∀ kws c, (kws, c) ∈ rules → ∀ kw ∈ kws,
      strIn kw t = true → kw.length = 0 := by
  intro kws c hr kw hkw hm
  rcases bestRuleAux_cases t (0, none) rules with
    he | ⟨_, _, _, _, _, _, _, h2, _⟩
  · have hge := bestRuleAux_ge_match (0, none) hr hkw hm
    rw [he] at hge
    omega
  · rw [bestRule, h2] at h
    cases h

/-! ## Resolver loop characterization -/

theorem resolveName_congr {rules : List PubRule} {pc1 pc2 : PubCache}
    {k : Option String} (h : alook pc1 k = alook pc2 k) :
    resolveName rules pc1 k = resolveName rules pc2 k := by
  simp only [resolveName, h]

theorem resolveStep_pcache_ne {rules : List PubRule}
    {st : ResolveState} {n k : Option String} (h : k ≠ n) :
    alook (resolveStep rules st n).pcache k = alook st.pcache k := by
  simp only [resolveStep]
  cases halook : alook st.pcache n with
  | some v => rfl
  | none =>
    cases hbest : (bestRule rules (matchTarget n)).2 with
    | some c => simp [aset, Ne.symm h]
    | none => rfl

theorem resolveStep_pmap_ne {rules : List PubRule}
    {st : ResolveState} {n k : Option String} (h : k ≠ n) :
    alook (resolveStep rules st n).pmap k = alook st.pmap k := by
  simp only [resolveStep]
  cases halook : alook st.pcache n with
  | some v => simp [aset, Ne.symm h]
  | none =>
    cases hbest : (bestRule rules (matchTarget n)).2 with
    | some c => simp [aset, Ne.symm h]
    | none => rfl

theorem resolveStep_pending_ne {rules : List PubRule}
    {st : ResolveState} {n k : Option String} (h : k ≠ n) :
    (k ∈ (resolveStep rules st n).pending ↔ k ∈ st.pending) := by
  simp only [resolveStep]
  cases halook : alook st.pcache n with
  | some v => exact Iff.rfl
  | none =>
    cases hbest : (bestRule rules (matchTarget n)).2 with
    | some c => exact Iff.rfl
    | none => simp [h]

theorem resolveList_pcache_not_mem {rules : List PubRule}
    {names : List (Option String)} {k : Option String}
    (st : ResolveState) (h : k ∉ names) :
    alook (resolveList rules names st).pcache k = alook st.pcache k := by
  induction names generalizing st with
  | nil => rfl
  | cons n rest ih =>
    have hk : k ≠ n := fun he => h (he ▸ List.mem_cons_self n rest)
    calc alook (resolveList rules rest (resolveStep rules st n)).pcache k
        = alook (resolveStep rules st n).pcache k :=
          ih _ (fun hm => h (List.mem_cons_of_mem _ hm))
      _ = alook st.pcache k := resolveStep_pcache_ne hk

theorem resolveList_pmap_not_mem {rules : List PubRule}
    {names : List (Option String)} {k : Option String}
    (st : ResolveState) (h : k ∉ names) :
    alook (resolveList rules names st).pmap k = alook st.pmap k := by
  induction names generalizing st with
  | nil => rfl
  | cons n rest ih =>
    have hk : k ≠ n := fun he => h (he ▸ List.mem_cons_self n rest)
    calc alook (resolveList rules rest (resolveStep rules st n)).pmap k
        = alook (resolveStep rules st n).pmap k :=
          ih _ (fun hm => h (List.mem_cons_of_mem _ hm))
      _ = alook st.pmap k := resolveStep_pmap_ne hk

theorem resolveList_pending_not_mem {rules : List PubRule}
    {names : List (Option String)} {k : Option String}
    (st : ResolveState) (h : k ∉ names) :
    (k ∈ (resolveList rules names st).pending ↔ k ∈ st.pending) := by
  induction names generalizing st with
  | nil => exact Iff.rfl
  | cons n rest ih =>
    have hk : k ≠ n := fun he => h (he ▸ List.mem_cons_self n rest)
    exact (ih _ (fun hm => h (List.mem_cons_of_mem _ hm))).trans
      (resolveStep_pending_ne hk)

theorem resolveList_pmap_mem {rules : List PubRule}
    {names : List (Option String)} {k : Option String}
    (st : ResolveState) (hnd : names.Nodup) (hk : k ∈ names) :
    alook (resolveList rules names st).pmap k =
      match resolveName rules st.pcache k with
      | some v => some v
      | none => alook st.pmap k := by
  induction names generalizing st with
  | nil => cases hk
  | cons n rest ih =>
    simp only [List.nodup_cons] at hnd
    rcases List.mem_cons.mp hk with rfl | hmem
    · have hout : alook (resolveList rules rest (resolveStep rules st k)).pmap k
          = alook (resolveStep rules st k).pmap k :=
        resolveList_pmap_not_mem _ hnd.1
      rw [resolveList, hout]
      simp only [resolveStep, resolveName]
      cases halook : alook st.pcache k with
      | some v => simp [aset]
      | none =>
        cases hbest : (bestRule rules (matchTarget k)).2 with
        | some c => simp [aset]
        | none => rfl
    · have hkn : k ≠ n := by
        intro he
        exact hnd.1 (he ▸ hmem)
      rw [resolveList, ih _ hnd.2 hmem]
      rw [resolveName_congr (resolveStep_pcache_ne hkn),
        resolveStep_pmap_ne hkn]

theorem resolveList_pcache_mem {rules : List PubRule}
    {names : List (Option String)} {k : Option String}
    (st : ResolveState) (hnd : names.Nodup) (hk : k ∈ names) :
    alook (resolveList rules names st).pcache k =
      resolveName rules st.pcache k := by
  induction names generalizing st with
  | nil => cases hk
  | cons n rest ih =>
    simp only [List.nodup_cons] at hnd
    rcases List.mem_cons.mp hk with rfl | hmem
    · have hout : alook (resolveList rules rest (resolveStep rules st k)).pcache k
          = alook (resolveStep rules st k).pcache k :=
        resolveList_pcache_not_mem _ hnd.1
      rw [resolveList, hout]
      simp only [resolveStep, resolveName]
      cases halook : alook st.pcache k with
      | some v => simp [halook]
      | none =>
        cases hbest : (bestRule rules (matchTarget k)).2 with
        | some c => simp [aset]
        | none => simp [halook]
    · have hkn : k ≠ n := by
        intro he
        exact hnd.1 (he ▸ hmem)
      rw [resolveList, ih _ hnd.2 hmem]
      exact resolveName_congr (resolveStep_pcache_ne hkn)

theorem resolveList_pending_eq {rules : List PubRule}
    {names : List (Option String)} (st : ResolveState)
    (hnd : names.Nodup) :
    (resolveList rules names st).pending =
      st.pending ++
        names.filter (fun n => (resolveName rules st.pcache n).isNone) := by
  induction names generalizing st with
  | nil => simp [resolveList]
  | cons n rest ih =>
    simp only [List.nodup_cons] at hnd
    rw [resolveList, ih _ hnd.2]
    simp only [resolveStep]
    cases halook : alook st.pcache n with
    | some v =>
      have hr : (resolveName rules st.pcache n).isNone = false := by
        simp [resolveName, halook]
      simp [List.filter_cons, hr]
    | none =>
      cases hbest : (bestRule rules (matchTarget n)).2 with
      | some c =>
        have hr : (resolveName rules st.pcache n).isNone = false := by
          simp [resolveName, halook, hbest]
        have hstep :
            rest.filter
              (fun m => (resolveName rules (aset st.pcache n c) m).isNone) =
            rest.filter
              (fun m => (resolveName rules st.pcache m).isNone) := by
          refine List.filter_congr ?_
          intro m hm
          have hmn : n ≠ m := fun he => hnd.1 (he ▸ hm)
          rw [resolveName_congr
            (show alook (aset st.pcache n c) m = alook st.pcache m by
              simp [aset, hmn])]
        simp [List.filter_cons, hr, hstep]
      | none =>
        have hr : (resolveName rules st.pcache n).isNone = true := by
          simp [resolveName, halook, hbest]
        simp [List.filter_cons, hr]

theorem resolveAll_pmap_mem {rules : List PubRule} {pc0 : PubCache}
    {names : List (Option String)} {k : Option String}
    (hnd : names.Nodup) (hk : k ∈ names) :
    alook (resolveAll rules pc0 names).pmap k = resolveName rules pc0 k := by
  rw [resolveAll, resolveList_pmap_mem _ hnd hk]
  cases resolveName rules pc0 k <;> rfl

theorem resolveAll_pmap_not_mem {rules : List PubRule} {pc0 : PubCache}
    {names : List (Option String)} {k : Option String} (hk : k ∉ names) :
    alook (resolveAll rules pc0 names).pmap k = none := by
  rw [resolveAll, resolveList_pmap_not_mem _ hk]
  rfl

theorem resolveAll_pcache_mem {rules : List PubRule} {pc0 : PubCache}
    {names : List (Option String)} {k : Option String}
    (hnd : names.Nodup) (hk : k ∈ names) :
    alook (resolveAll rules pc0 names).pcache k = resolveName rules pc0 k :=
  resolveList_pcache_mem _ hnd hk

theorem resolveAll_pcache_not_mem {rules : List PubRule} {pc0 : PubCache}
    {names : List (Option String)} {k : Option String} (hk : k ∉ names) :
    alook (resolveAll rules pc0 names).pcache k = alook pc0 k :=
  resolveList_pcache_not_mem _ hk

theorem resolveAll_pending {rules : List PubRule} {pc0 : PubCache}
    {names : List (Option String)} (hnd : names.Nodup) :
    (resolveAll rules pc0 names).pending =
      names.filter (fun n => (resolveName rules pc0 n).isNone) := by
  rw [resolveAll, resolveList_pending_eq _ hnd]
  rfl

theorem resolveAll_pending_sub {rules : List PubRule} {pc0 : PubCache}
    {names : List (Option String)} {k : Option String}
    (hnd : names.Nodup) (hk : k ∈ (resolveAll rules pc0 names).pending) :
    k ∈ names ∧ resolveName rules pc0 k = none := by
  rw [resolveAll_pending hnd] at hk
  have := List.of_mem_filter hk
  exact ⟨List.mem_of_mem_filter hk, by
    cases h : resolveName rules pc0 k
    · rfl
    · rw [h] at this; cases this⟩

/-! ## Extraction phase lemmas -/

theorem extractPhase_fst (mc0 : MetaCache) (l : List FileEnv) :
    (extractPhase mc0 l).1 = l.filterMap process_file := by
  induction l generalizing mc0 with
  | nil => rfl
  | cons f rest ih =>
    simp only [extractPhase, ih, List.filterMap_cons]
    cases process_file f <;> simp [Option.toList]

theorem extractPhase_snd_not_mem {l : List FileEnv} {p : String}
    (mc0 : MetaCache) (h : ∀ f ∈ l, f.path ≠ p) :
    alook (extractPhase mc0 l).2 p = alook mc0 p := by
  induction l generalizing mc0 with
  | nil => rfl
  | cons f rest ih =>
    have hstep : alook (commitOne mc0 f) p = alook mc0 p := by
      have hf : f.path ≠ p := h f (List.mem_cons_self _ _)
      simp only [commitOne]
      cases process_file f with
      | none => rfl
      | some bm =>
        cases f.commitMtime with
        | none => rfl
        | some t => simp [aset, hf]
    calc alook (extractPhase mc0 (f :: rest)).2 p
        = alook (extractPhase (commitOne mc0 f) rest).2 p := rfl
      _ = alook (commitOne mc0 f) p :=
          ih _ (fun x hx => h x (List.mem_cons_of_mem _ hx))
      _ = alook mc0 p := hstep

theorem extractPhase_snd_mem {l : List FileEnv} {f : FileEnv}
    (mc0 : MetaCache) (hnd : (l.map (fun g => g.path)).Nodup)
    (hf : f ∈ l) :
    alook (extractPhase mc0 l).2 f.path =
      match process_file f, f.commitMtime with
      | some bm, some t => some ⟨t, bm⟩
      | _, _ => alook mc0 f.path := by
  induction l generalizing mc0 with
  | nil => cases hf
  | cons g rest ih =>
    simp only [List.map_cons, List.nodup_cons] at hnd
    rcases List.mem_cons.mp hf with rfl | hmem
    · have hout : ∀ x ∈ rest, x.path ≠ f.path := by
        intro x hx he
        exact hnd.1 (he ▸ List.mem_map.mpr ⟨x, hx, rfl⟩)
      have h1 : alook (extractPhase (commitOne mc0 f) rest).2 f.path
          = alook (commitOne mc0 f) f.path :=
        extractPhase_snd_not_mem _ hout
      show alook (extractPhase (commitOne mc0 f) rest).2 f.path = _
      rw [h1]
      simp only [commitOne]
      cases process_file f with
      | none => rfl
      | some bm =>
        cases f.commitMtime with
        | none => rfl
        | some t => simp [aset]
    · have hgf : g.path ≠ f.path := by
        intro he
        exact hnd.1 (he ▸ List.mem_map.mpr ⟨f, hmem, rfl⟩)
      have hstep : alook (commitOne mc0 g) f.path = alook mc0 f.path := by
        simp only [commitOne]
        cases process_file g with
        | none => rfl
        | some bm =>
          cases g.commitMtime with
          | none => rfl
          | some t => simp [aset, hgf]
      show alook (extractPhase (commitOne mc0 g) rest).2 f.path = _
      rw [ih _ hnd.2 hmem, hstep]

/-! ## Catalog lemmas -/

theorem buildCatalog_eq (pm : PubCache) (raw : List BookMeta) :
    buildCatalog pm raw =
      (raw.map (fun bm => (bm.filename, assembleEntry pm bm))).reverse := by
  have haux : ∀ (raw : List BookMeta) (acc : List (String × CatEntry)),
      raw.foldl (fun cat bm => aset cat bm.filename (assembleEntry pm bm)) acc =
        (raw.map (fun bm => (bm.filename, assembleEntry pm bm))).reverse ++ acc := by
    intro raw
    induction raw with
    | nil => intro acc; simp
    | cons bm rest ih =>
      intro acc
      simp only [List.foldl_cons, List.map_cons, List.reverse_cons, ih]
      simp [aset]
  rw [buildCatalog, haux raw []]
  simp

theorem alook_buildCatalog_entry {pm : PubCache} {raw : List BookMeta}
    {fn : String} {e : CatEntry}
    (h : alook (buildCatalog pm raw) fn = some e) :
    ∃ bm ∈ raw, bm.filename = fn ∧ e = assembleEntry pm bm := by
  have hmem := alook_eq_some_mem h
  rw [buildCatalog_eq, List.mem_reverse] at hmem
  rcases List.mem_map.mp hmem with ⟨bm, hbm, hpair⟩
  injection hpair with h1 h2
  exact ⟨bm, hbm, h1, h2.symm⟩

theorem alook_buildCatalog_nodup {pm : PubCache} {raw : List BookMeta}
    (hnd : (raw.map (fun bm => bm.filename)).Nodup) (fn : String) :
    alook (buildCatalog pm raw) fn =
      alook (raw.map (fun bm => (bm.filename, assembleEntry pm bm))) fn := by
  rw [buildCatalog_eq]
  have hperm : ((raw.map (fun bm => (bm.filename, assembleEntry pm bm))).reverse).Perm
      (raw.map (fun bm => (bm.filename, assembleEntry pm bm))) :=
    List.reverse_perm _
  have hkeys : (((raw.map (fun bm => (bm.filename, assembleEntry pm bm))).reverse).map
      Prod.fst).Nodup := by
    rw [List.map_reverse, List.nodup_reverse, List.map_map]
    exact hnd
  exact alook_perm hperm hkeys fn

/-! ## Per-file contribution to the raw record list -/

theorem check_hit_elim {obs : Option Int} {ce : Option CacheEntry}
    {m : BookMeta} (h : check_file_cache obs ce = .hit m) :
    ∃ e t, ce = some e ∧ obs = some t ∧ e.mtime = t ∧ m = e.metadata := by
  cases obs with
  | none => cases h
  | some t =>
    cases ce with
    | none => cases h
    | some e =>
      by_cases he : e.mtime = t
      · refine ⟨e, t, rfl, rfl, he, ?_⟩
        simp only [check_file_cache, if_pos he] at h
        injection h with h
        exact h.symm
      · simp only [check_file_cache, if_neg he] at h
        cases h

/-- The record one file contributes to `raw_metadata_list`: its cached
record on a HIT, its fresh extraction on a MISS (or under force-reload),
nothing when extraction fails. -/
def contrib (cfg : RunConfig) (mc0 : MetaCache) (f : FileEnv) :
    Option BookMeta :=
  if cfg.forceReload then process_file f
  else
    match check_file_cache f.checkMtime (alook mc0 f.path) with
    | .hit m => some m
    | .miss => process_file f

theorem raw_merge_perm (mc0 : MetaCache) (files : List FileEnv) :
    (files.filterMap (hitFun mc0) ++
        (files.filter (missFun mc0)).filterMap process_file).Perm
      (files.filterMap (contrib ⟨false, false, false, false, false⟩ mc0)) := by
  induction files with
  | nil => exact List.Perm.refl _
  | cons f rest ih =>
    cases hchk : check_file_cache f.checkMtime (alook mc0 f.path) with
    | hit m =>
      have h1 : hitFun mc0 f = some m := by simp [hitFun, hchk]
      have h3 : contrib ⟨false, false, false, false, false⟩ mc0 f = some m := by
        simp [contrib, hchk]
      rw [List.filterMap_cons, List.filterMap_cons, h1, h3,
        List.filter_cons_of_neg (by simp [missFun, hchk])]
      simpa using ih.cons m
    | miss =>
      have h1 : hitFun mc0 f = none := by simp [hitFun, hchk]
      have h3 : contrib ⟨false, false, false, false, false⟩ mc0 f =
          process_file f := by
        simp [contrib, hchk]
      rw [List.filterMap_cons, List.filterMap_cons, h1, h3,
        List.filter_cons_of_pos (by simp [missFun, hchk]),
        List.filterMap_cons]
      cases hpf : process_file f with
      | none => simpa using ih
      | some bm => simpa using (List.perm_middle).trans (ih.cons bm)

theorem contrib_eq_general (cfg : RunConfig) (mc0 : MetaCache)
    (f : FileEnv) (hfr : cfg.forceReload = false) :
    contrib cfg mc0 f = contrib ⟨false, false, false, false, false⟩ mc0 f := by
  simp [contrib, hfr]

/-- Under any configuration, `raw_metadata_list` built from the
submission order is a permutation of the per-file contributions. -/
theorem rawRecords_perm (cfg : RunConfig) (mc0 : MetaCache)
    (files : List FileEnv) :
    (rawRecords cfg files (toProcessOf cfg files mc0) mc0).Perm
      (files.filterMap (contrib cfg mc0)) := by
  by_cases hfr : cfg.forceReload = true
  · simp only [rawRecords, hitsOf, toProcessOf, if_pos hfr,
      extractPhase_fst, List.nil_append]
    have : ∀ g ∈ files, process_file g = contrib cfg mc0 g := by
      intro g _
      simp [contrib, hfr]
    rw [List.filterMap_congr this]
  · have hfr' : cfg.forceReload = false := by
      cases h : cfg.forceReload
      · rfl
      · exact absurd h hfr
    simp only [rawRecords, hitsOf, toProcessOf, if_neg hfr,
      extractPhase_fst]
    have := raw_merge_perm mc0 files
    refine this.trans ?_
    have hcongr : ∀ g ∈ files,
        contrib ⟨false, false, false, false, false⟩ mc0 g =
          contrib cfg mc0 g := by
      intro g _
      exact (contrib_eq_general cfg mc0 g hfr').symm
    rw [List.filterMap_congr hcongr]

/-- A reordered extraction phase yields a permuted raw record list. -/
theorem rawRecords_perm_ord (cfg : RunConfig) (mc0 : MetaCache)
    (files extOrd : List FileEnv)
    (hperm : extOrd.Perm (toProcessOf cfg files mc0)) :
    (rawRecords cfg files extOrd mc0).Perm
      (files.filterMap (contrib cfg mc0)) := by
  have h1 : (rawRecords cfg files extOrd mc0).Perm
      (rawRecords cfg files (toProcessOf cfg files mc0) mc0) := by
    simp only [rawRecords, extractPhase_fst]
    exact (List.Perm.refl _).append (hperm.filterMap process_file)
  exact h1.trans (rawRecords_perm cfg mc0 files)

theorem contrib_filename {cfg : RunConfig} {mc0 : MetaCache}
    {f : FileEnv} {bm : BookMeta}
    (hwf : ∀ e, alook mc0 f.path = some e →
      e.metadata.filename = f.filename)
    (h : contrib cfg mc0 f = some bm) : bm.filename = f.filename := by
  have hpf : ∀ bm2, process_file f = some bm2 → bm2.filename = f.filename := by
    intro bm2 h2
    cases hex : f.extractResult with
    | none => rw [process_file, hex] at h2; cases h2
    | some r =>
      rw [process_file, hex] at h2
      injection h2 with h2
      rw [← h2]
  by_cases hfr : cfg.forceReload = true
  · rw [contrib, if_pos hfr] at h
    exact hpf bm h
  · rw [contrib, if_neg hfr] at h
    cases hchk : check_file_cache f.checkMtime (alook mc0 f.path) with
    | hit m =>
      rw [hchk] at h
      injection h with h
      subst h
      rcases check_hit_elim hchk with ⟨e, t, hce, _, _, hm⟩
      rw [hm]
      exact hwf e hce
    | miss =>
      rw [hchk] at h
      exact hpf bm h

theorem mem_contrib_filename {cfg : RunConfig} {mc0 : MetaCache}
    {files : List FileEnv} {bm : BookMeta}
    (hwf : ∀ f ∈ files, ∀ e, alook mc0 f.path = some e →
      e.metadata.filename = f.filename)
    (h : bm ∈ files.filterMap (contrib cfg mc0)) :
    bm.filename ∈ files.map (fun f => f.filename) := by
  rcases List.mem_filterMap.mp h with ⟨f, hf, hc⟩
  exact List.mem_map.mpr ⟨f, hf, (contrib_filename (hwf f hf) hc).symm⟩

theorem nodup_contrib_filenames {cfg : RunConfig} {mc0 : MetaCache}
    {files : List FileEnv}
    (hnames : (files.map (fun f => f.filename)).Nodup)
    (hwf : ∀ f ∈ files, ∀ e, alook mc0 f.path = some e →
      e.metadata.filename = f.filename) :
    ((files.filterMap (contrib cfg mc0)).map
      (fun bm => bm.filename)).Nodup := by
  induction files with
  | nil => exact List.nodup_nil
  | cons f rest ih =>
    simp only [List.map_cons, List.nodup_cons] at hnames
    have hwfr : ∀ g ∈ rest, ∀ e, alook mc0 g.path = some e →
        e.metadata.filename = g.filename :=
      fun g hg => hwf g (List.mem_cons_of_mem _ hg)
    simp only [List.filterMap_cons]
    cases hc : contrib cfg mc0 f with
    | none => exact ih hnames.2 hwfr
    | some bm =>
      simp only [List.map_cons, List.nodup_cons]
      refine ⟨?_, ih hnames.2 hwfr⟩
      intro hmem
      have hb : bm.filename = f.filename :=
        contrib_filename (hwf f (List.mem_cons_self _ _)) hc
      rcases List.mem_map.mp hmem with ⟨bm2, hbm2, he⟩
      have : bm2.filename ∈ rest.map (fun g => g.filename) :=
        mem_contrib_filename hwfr hbm2
      rw [he, hb] at this
      exact hnames.1 this

/-! ## External batch fallback lemmas -/

theorem foldl_update_no_key
    {oracle : List (Option String) → Option PubCache}
    {cs : List (List (Option String))} {k : Option String}
    (h : ∀ c ∈ cs, ∀ m, oracle c = some m → ∀ kv ∈ m, kv.1 ≠ k) :
    ∀ acc : PubCache,
      alook (cs.foldl (fun a c => dictUpdate a ((oracle c).getD [])) acc) k
        = alook acc k := by
  induction cs with
  | nil => intro acc; rfl
  | cons c rest ih =>
    intro acc
    rw [List.foldl_cons, ih (fun x hx => h x (List.mem_cons_of_mem _ hx))]
    cases hm : oracle c with
    | none => rfl
    | some m =>
      exact alook_dictUpdate_of_no_key _
        (fun kv hkv => h c (List.mem_cons_self _ _) m hm kv hkv)

/-- A name whose key appears in no successful chunk response is absent
from the merged AI result. -/
theorem normalize_ai_none
    {oracle : List (Option String) → Option PubCache}
    {pend : List (Option String)} {k : Option String}
    (h : ∀ c ∈ chunks50 pend, ∀ m, oracle c = some m →
      ∀ kv ∈ m, kv.1 ≠ k) :
    alook (normalize_publishers_batch_ai oracle pend) k = none :=
  foldl_update_no_key h []

/-- A binding returned by a successful chunk survives into the merged AI
result, provided the oracle only answers for names of the chunk it was
asked about and the pending list has no duplicates. -/
theorem normalize_ai_some
    {oracle : List (Option String) → Option PubCache}
    {pend : List (Option String)} (hnd : pend.Nodup)
    (hwf : ∀ c m, oracle c = some m → ∀ kv ∈ m, kv.1 ∈ c)
    {c : List (Option String)} (hc : c ∈ chunks50 pend)
    {m : PubCache} (hm : oracle c = some m)
    (hmnd : (m.map Prod.fst).Nodup) {k : Option String} {v : String}
    (hkv : (k, v) ∈ m) :
    alook (normalize_publishers_batch_ai oracle pend) k = some v := by
  have hk : k ∈ c := hwf c m hm (k, v) hkv
  obtain ⟨pre, post, hsplit⟩ := List.append_of_mem hc
  have hflat : ((pre ++ c :: post).flatten).Nodup := by
    rw [← hsplit, chunks50_flatten]
    exact hnd
  rw [List.flatten_append, List.flatten_cons] at hflat
  have hcpost : (c ++ post.flatten).Nodup := hflat.of_append_right
  have hpost : ∀ c' ∈ post, k ∉ c' := by
    intro c' hc' hkc'
    have hkf : k ∈ post.flatten := List.mem_flatten.mpr ⟨c', hc', hkc'⟩
    exact (List.nodup_append.mp hcpost).2.2 hk hkf
  rw [normalize_publishers_batch_ai, hsplit, List.foldl_append,
    List.foldl_cons]
  have hnokey : ∀ c' ∈ post, ∀ m', oracle c' = some m' →
      ∀ kv ∈ m', kv.1 ≠ k := by
    intro c' hc' m' hm' kv hkvm he
    exact hpost c' hc' (he ▸ hwf c' m' hm' kv hkvm)
  rw [foldl_update_no_key hnokey, hm]
  exact alook_dictUpdate_of_mem _ hmnd hkv

/-! ## Miscellaneous helpers -/

theorem alook_eq_none_iff {α β : Type} [DecidableEq α]
    {l : List (α × β)} {k : α} :
    alook l k = none ↔ ∀ kv ∈ l, kv.1 ≠ k := by
  induction l with
  | nil => simp
  | cons kv t ih =>
    obtain ⟨a, b⟩ := kv
    by_cases hk : a = k
    · subst hk
      simp [alook_cons]
    · simp [alook_cons, hk, ih]

theorem alook_dictUpdate_none {α β : Type} [DecidableEq α]
    {d m : List (α × β)} {k : α} (h : alook m k = none) :
    alook (dictUpdate d m) k = alook d k :=
  alook_dictUpdate_of_no_key d (alook_eq_none_iff.mp h)

theorem strLength_pos {s : String} (h : s ≠ "") : 0 < s.length := by
  cases s with
  | mk data =>
    cases data with
    | nil => exact absurd rfl h
    | cons c t => simp [String.length]

theorem strLength_zero {s : String} (h : s.length = 0) : s = "" := by
  cases s with
  | mk data =>
    cases data with
    | nil => rfl
    | cons c t => simp [String.length] at h

/-- Characterization of `is_bad_title` in the terms of the spec. -/
theorem is_bad_title_iff (t : String) :
    is_bad_title t = true ↔
      (pyStrip t = "" ∨ pyLower t = "n/a" ∨
        ∃ sub ∈ bad_substrings, strIn sub (pyLower t) = true) := by
  by_cases h0 : t = ""
  · subst h0
    simp [is_bad_title, pyStrip]
  · by_cases h1 : pyStrip t = ""
    · simp [is_bad_title, h0, h1]
    · by_cases h2 : pyLower t = "n/a"
      · simp [is_bad_title, h0, h1, h2]
      · simp [is_bad_title, h0, h1, h2, List.any_eq_true]

/-! ## Claim C6 -/

/-- C6: `check_file_cache` yields HIT exactly when a cached entry exists
and its stored mtime equals the observed mtime, the HIT payload being
the cached record; a vanished file (no observable mtime) or a missing
entry yields MISS — totality of the embedding reflects that the
`FileNotFoundError` is caught inside the detector. -/
theorem C6_change_detector (obs : Option Int) (ce : Option CacheEntry) :
    ((∃ m, check_file_cache obs ce = .hit m) ↔
      (∃ e t, ce = some e ∧ obs = some t ∧ e.mtime = t)) ∧
    (∀ m, check_file_cache obs ce = .hit m →
      ∃ e, ce = some e ∧ m = e.metadata) ∧
    (obs = none → check_file_cache obs ce = .miss) ∧
    (ce = none → check_file_cache obs ce = .miss) := by
  refine ⟨⟨?_, ?_⟩, ?_, ?_, ?_⟩
  · rintro ⟨m, hm⟩
    rcases check_hit_elim hm with ⟨e, t, h1, h2, h3, _⟩
    exact ⟨e, t, h1, h2, h3⟩
  · rintro ⟨e, t, rfl, rfl, he⟩
    exact ⟨e.metadata, by simp [check_file_cache, he]⟩
  · intro m hm
    rcases check_hit_elim hm with ⟨e, _, h1, _, _, h4⟩
    exact ⟨e, h1, h4⟩
  · rintro rfl
    rfl
  · rintro rfl
    cases obs <;> rfl

/-- Witness for C6 at concrete inputs. -/
theorem C6_change_detector_witness :
    check_file_cache (none : Option Int)
        (some ⟨5, ⟨"T", [], none, "a.pdf"⟩⟩) = .miss ∧
    check_file_cache (some 5) (none : Option CacheEntry) = .miss ∧
    (∃ m, check_file_cache (some 5)
        (some ⟨5, ⟨"T", [], none, "a.pdf"⟩⟩) = .hit m) :=
  ⟨(C6_change_detector none (some ⟨5, ⟨"T", [], none, "a.pdf"⟩⟩)).2.2.1 rfl,
   (C6_change_detector (some 5) none).2.2.2 rfl,
   (C6_change_detector (some 5) (some ⟨5, ⟨"T", [], none, "a.pdf"⟩⟩)).1.mpr
     ⟨⟨5, ⟨"T", [], none, "a.pdf"⟩⟩, 5, rfl, rfl, rfl⟩⟩

/-! ## Claim C7 -/

/-- C7: a cache entry is committed only on successful extraction (a
failed extraction, or a file vanished at commit time, leaves the cache
untouched), and the stored fingerprint is the mtime observed at commit
time — the commit is invariant under the detection-time observation. -/
theorem C7_commit_fingerprint (mc : MetaCache) (f : FileEnv) :
    (process_file f = none → commitOne mc f = mc) ∧
    (∀ bm, process_file f = some bm →
      (∀ t, f.commitMtime = some t →
        alook (commitOne mc f) f.path = some ⟨t, bm⟩) ∧
      (f.commitMtime = none → commitOne mc f = mc)) ∧
    (∀ x, commitOne mc
        ⟨f.path, f.filename, x, f.extractResult, f.commitMtime⟩ =
      commitOne mc f) := by
  refine ⟨?_, ?_, ?_⟩
  · intro h
    simp [commitOne, h]
  · intro bm hbm
    constructor
    · intro t ht
      simp [commitOne, hbm, ht, aset]
    · intro ht
      simp [commitOne, hbm, ht]
  · intro x
    rfl

/-- Witness for C7 at concrete inputs: a failed extraction commits
nothing; a successful one stores the commit-time mtime 2, not the
detection-time mtime 1. -/
theorem C7_commit_fingerprint_witness :
    commitOne [] ⟨"/d/x.pdf", "x.pdf", some 1, none, some 2⟩ = [] ∧
    alook (commitOne []
        ⟨"/d/x.pdf", "x.pdf", some 1, some ⟨"T", [], none⟩, some 2⟩)
      "/d/x.pdf" = some ⟨2, ⟨"T", [], none, "x.pdf"⟩⟩ :=
  ⟨(C7_commit_fingerprint [] ⟨"/d/x.pdf", "x.pdf", some 1, none, some 2⟩).1
      rfl,
   ((C7_commit_fingerprint []
        ⟨"/d/x.pdf", "x.pdf", some 1, some ⟨"T", [], none⟩, some 2⟩).2.1
      ⟨"T", [], none, "x.pdf"⟩ rfl).1 2 rfl⟩

/-! ## Claim C8 -/

/-- C8: every assembled catalog entry keeps the extracted title unless
it is empty/whitespace-only, equals the absent marker `n/a` up to ASCII
case, or contains a known-bad substring — in which case the title is the
file's basename without its extension. -/
theorem C8_title_fallback (pm : PubCache) (raw : List BookMeta)
    (fn : String) (e : CatEntry)
    (h : alook (buildCatalog pm raw) fn = some e) :
    ∃ bm ∈ raw, bm.filename = fn ∧
      (is_bad_title bm.title = true → e.title = splitextStem bm.filename) ∧
      (is_bad_title bm.title = false → e.title = bm.title) ∧
      (is_bad_title bm.title = true ↔
        (pyStrip bm.title = "" ∨ pyLower bm.title = "n/a" ∨
          ∃ sub ∈ bad_substrings, strIn sub (pyLower bm.title) = true)) := by
  rcases alook_buildCatalog_entry h with ⟨bm, hbm, hfn, he⟩
  refine ⟨bm, hbm, hfn, ?_, ?_, is_bad_title_iff bm.title⟩
  · intro hbad
    rw [he]
    simp [assembleEntry, hbad]
  · intro hbad
    rw [he]
    simp [assembleEntry, hbad]

/-- Witness for C8: a tool-boilerplate title is replaced by the
basename stem, a sound title is kept. -/
theorem C8_title_fallback_witness :
    (∃ bm ∈ [(⟨"Microsoft Word - draft.doc", [], none, "book.pdf"⟩ : BookMeta)],
      bm.filename = "book.pdf" ∧
      (is_bad_title bm.title = true → (⟨"book", [], none, none⟩ : CatEntry).title = splitextStem bm.filename) ∧
      (is_bad_title bm.title = false → (⟨"book", [], none, none⟩ : CatEntry).title = bm.title) ∧
      (is_bad_title bm.title = true ↔
        (pyStrip bm.title = "" ∨ pyLower bm.title = "n/a" ∨
          ∃ sub ∈ bad_substrings, strIn sub (pyLower bm.title) = true))) :=
  C8_title_fallback []
    [⟨"Microsoft Word - draft.doc", [], none, "book.pdf"⟩]
    "book.pdf" ⟨"book", [], none, none⟩ (by decide)

/-! ## Claim C1 -/

/-- C1: resolver tiering over the distinct (deduplicated) names of a
run, for a nonempty string name.  Tier 1: a cached name adopts the
cached value, its cache entry is untouched, the outcome is the same
under any rule table, and the name is not pended for the external
endpoint.  Tier 2: an uncached name having a rule with a (nonempty)
keyword occurring in the lowercased name adopts the canonical name of a
rule whose matching keyword has maximal length among all matching
keywords, that value is written into the publisher cache, and the name
is not pended.  Tier 3: a name matching no rule joins the pending list
and is written nowhere. -/
theorem C1_resolver_tiering (rules : List PubRule) (pc0 : PubCache)
    (names : List (Option String)) (s : String)
    (hnd : names.Nodup) (hs : s ≠ "") (hmem : some s ∈ names) :
    (∀ v, alook pc0 (some s) = some v →
      alook (resolveAll rules pc0 names).pmap (some s) = some v ∧
      alook (resolveAll rules pc0 names).pcache (some s) = some v ∧
      (∀ rules2, alook (resolveAll rules2 pc0 names).pmap (some s) = some v) ∧
      some s ∉ (resolveAll rules pc0 names).pending) ∧
    (alook pc0 (some s) = none →
      ((∃ kws c, (kws, c) ∈ rules ∧ ∃ kw ∈ kws, kw ≠ "" ∧
          strIn kw (pyLower s) = true) →
        (∃ kws c, (kws, c) ∈ rules ∧
          alook (resolveAll rules pc0 names).pmap (some s) = some c ∧
          alook (resolveAll rules pc0 names).pcache (some s) = some c ∧
          ∃ kw ∈ kws, strIn kw (pyLower s) = true ∧
            ∀ kws2 c2, (kws2, c2) ∈ rules → ∀ kw2 ∈ kws2,
              strIn kw2 (pyLower s) = true → kw2.length ≤ kw.length) ∧
        some s ∉ (resolveAll rules pc0 names).pending) ∧
      ((∀ kws c, (kws, c) ∈ rules → ∀ kw ∈ kws,
          strIn kw (pyLower s) = true → kw = "") →
        some s ∈ (resolveAll rules pc0 names).pending ∧
        alook (resolveAll rules pc0 names).pcache (some s) = none ∧
        alook (resolveAll rules pc0 names).pmap (some s) = none)) := by
  have htarget : matchTarget (some s) = pyLower s := by
    simp [matchTarget, hs]
  constructor
  · intro v hv
    have hres : resolveName rules pc0 (some s) = some v := by
      simp [resolveName, hv]
    refine ⟨?_, ?_, ?_, ?_⟩
    · rw [resolveAll_pmap_mem hnd hmem, hres]
    · rw [resolveAll_pcache_mem hnd hmem, hres]
    · intro rules2
      rw [resolveAll_pmap_mem hnd hmem]
      simp [resolveName, hv]
    · rw [resolveAll_pending hnd]
      intro hin
      have := List.of_mem_filter hin
      rw [hres] at this
      cases this
  · intro hnc
    constructor
    · rintro ⟨kws, c, hr, kw, hkw, hne, hmatch⟩
      have hsome : ((bestRule rules (matchTarget (some s))).2).isSome = true := by
        rw [htarget]
        exact bestRule_isSome_of_match hr hkw hmatch (strLength_pos hne)
      rcases Option.isSome_iff_exists.mp hsome with ⟨c2, hc2⟩
      have hres : resolveName rules pc0 (some s) = some c2 := by
        simp [resolveName, hnc, hc2]
      rw [htarget] at hc2
      rcases bestRule_some_spec hc2 with ⟨kws3, hr3, kw3, hkw3, hm3, _, hmax⟩
      constructor
      · refine ⟨kws3, c2, hr3, ?_, ?_, kw3, hkw3, hm3, hmax⟩
        · rw [resolveAll_pmap_mem hnd hmem, hres]
        · rw [resolveAll_pcache_mem hnd hmem, hres]
      · rw [resolveAll_pending hnd]
        intro hin
        have := List.of_mem_filter hin
        rw [hres] at this
        cases this
    · intro hnomatch
      have hbr : (bestRule rules (matchTarget (some s))).2 = none := by
        rw [htarget]
        cases hb : (bestRule rules (pyLower s)).2 with
        | none => rfl
        | some c =>
          exfalso
          rcases bestRule_some_spec hb with ⟨kws, hr, kw, hkw, hm, hpos, _⟩
          have := hnomatch kws c hr kw hkw hm
          rw [this] at hpos
          simp [String.length] at hpos
      have hres : resolveName rules pc0 (some s) = none := by
        simp [resolveName, hnc, hbr]
      refine ⟨?_, ?_, ?_⟩
      · rw [resolveAll_pending hnd]
        refine List.mem_filter.mpr ⟨hmem, ?_⟩
        rw [hres]
        rfl
      · rw [resolveAll_pcache_mem hnd hmem, hres]
      · rw [resolveAll_pmap_mem hnd hmem, hres]

/-- Witness for C1: the cached tier, the longest-match rule tier (the
two-word keyword beats the generic one-word keyword of another rule),
and the pending tier, at concrete inputs. -/
theorem C1_resolver_tiering_witness :
    (alook (resolveAll [(["reilly"], "A")] [(some "Known", "K")]
        [some "Known"]).pmap (some "Known") = some "K" ∧
      alook (resolveAll [(["reilly"], "A")] [(some "Known", "K")]
        [some "Known"]).pcache (some "Known") = some "K" ∧
      (∀ rules2, alook (resolveAll rules2 [(some "Known", "K")]
        [some "Known"]).pmap (some "Known") = some "K") ∧
      some "Known" ∉ (resolveAll [(["reilly"], "A")] [(some "Known", "K")]
        [some "Known"]).pending) ∧
    ((∃ kws c, (kws, c) ∈
        [(["media"], "Generic"), (["reilly media"], "ORM")] ∧
        alook (resolveAll [(["media"], "Generic"), (["reilly media"], "ORM")]
          [] [some "O'Reilly Media, Inc."]).pmap
            (some "O'Reilly Media, Inc.") = some c ∧
        alook (resolveAll [(["media"], "Generic"), (["reilly media"], "ORM")]
          [] [some "O'Reilly Media, Inc."]).pcache
            (some "O'Reilly Media, Inc.") = some c ∧
        ∃ kw ∈ kws, strIn kw (pyLower "O'Reilly Media, Inc.") = true ∧
          ∀ kws2 c2, (kws2, c2) ∈
            [(["media"], "Generic"), (["reilly media"], "ORM")] →
            ∀ kw2 ∈ kws2, strIn kw2 (pyLower "O'Reilly Media, Inc.") = true →
              kw2.length ≤ kw.length) ∧
      some "O'Reilly Media, Inc." ∉
        (resolveAll [(["media"], "Generic"), (["reilly media"], "ORM")]
          [] [some "O'Reilly Media, Inc."]).pending) ∧
    some "Unmatched" ∈
      (resolveAll [(["media"], "Generic")] [] [some "Unmatched"]).pending :=
  ⟨(C1_resolver_tiering [(["reilly"], "A")] [(some "Known", "K")]
      [some "Known"] "Known" (by decide) (by decide) (by decide)).1
      "K" (by decide),
   ((C1_resolver_tiering [(["media"], "Generic"), (["reilly media"], "ORM")]
      [] [some "O'Reilly Media, Inc."] "O'Reilly Media, Inc."
      (by decide) (by decide) (by decide)).2 (by decide)).1
      ⟨["reilly media"], "ORM", by decide, "reilly media", by decide,
        by decide, by decide⟩,
   (((C1_resolver_tiering [(["media"], "Generic")] [] [some "Unmatched"]
      "Unmatched" (by decide) (by decide) (by decide)).2 (by decide)).2
      (by
        rintro kws c hr kw hkw hm
        simp only [List.mem_singleton] at hr
        injection hr with h1 h2
        subst h1
        simp only [List.mem_singleton] at hkw
        subst hkw
        exact absurd hm (by decide))).1⟩

/-! ## Claim C2 -/

/-- C2 counterexample: the absent publisher (`None`) is not
short-circuited before tier 1.  With an empty cache it is matched
against the rule table as the literal string `"null"` — a rule keyword
occurring in `"null"` captures it and it does not map to itself — and
with no rules it is put on the pending list; with the AI flag, key and
prompt present it is part of the list sent to the external endpoint. -/
theorem C2_counterexample :
    alook (resolveAll [(["null"], "Null Press")] [] [none]).pmap none =
      some "Null Press" ∧
    (resolveAll ([] : List PubRule) [] [none]).pending = [none] ∧
    (runPipeline ⟨false, false, true, true, true⟩
        [⟨"/d/c.epub", "c.epub", some 0, some ⟨"T", [], none⟩, some 0⟩]
        [] [] [] (fun _ => none)).aiSent = [none] := by
  refine ⟨by decide, by decide, by decide⟩

/-- C2 amended: when the absent publisher value is not in the cache it
is *not* short-circuited: it goes through the rule table with match
target `"null"`; if a nonempty rule keyword occurs in `"null"` the
rule's canonical name becomes its value and is written to the cache,
otherwise it joins the pending list (and hence, when the external
fallback is enabled, the list sent externally), mapping to itself only
by virtue of the identity fallback for unresolved names. -/
theorem C2_sentinel_not_short_circuited (rules : List PubRule)
    (pc0 : PubCache) (names : List (Option String))
    (hnd : names.Nodup) (hmem : none ∈ names)
    (hnc : alook pc0 none = none) :
    (∀ c, (bestRule rules "null").2 = some c →
      alook (resolveAll rules pc0 names).pmap none = some c ∧
      alook (resolveAll rules pc0 names).pcache none = some c ∧
      none ∉ (resolveAll rules pc0 names).pending) ∧
    ((bestRule rules "null").2 = none →
      none ∈ (resolveAll rules pc0 names).pending ∧
      alook (resolveAll rules pc0 names).pmap none = none) := by
  have htarget : matchTarget none = "null" := rfl
  constructor
  · intro c hc
    have hres : resolveName rules pc0 none = some c := by
      simp [resolveName, hnc, htarget, hc]
    refine ⟨?_, ?_, ?_⟩
    · rw [resolveAll_pmap_mem hnd hmem, hres]
    · rw [resolveAll_pcache_mem hnd hmem, hres]
    · rw [resolveAll_pending hnd]
      intro hin
      have := List.of_mem_filter hin
      rw [hres] at this
      cases this
  · intro hc
    have hres : resolveName rules pc0 none = none := by
      simp [resolveName, hnc, htarget, hc]
    constructor
    · rw [resolveAll_pending hnd]
      refine List.mem_filter.mpr ⟨hmem, ?_⟩
      rw [hres]
      rfl
    · rw [resolveAll_pmap_mem hnd hmem, hres]

/-- Witness for the amended C2 at concrete inputs. -/
theorem C2_sentinel_witness :
    (alook (resolveAll [(["ul"], "UL Books")] [] [none]).pmap none =
        some "UL Books" ∧
      alook (resolveAll [(["ul"], "UL Books")] [] [none]).pcache none =
        some "UL Books" ∧
      none ∉ (resolveAll [(["ul"], "UL Books")] [] [none]).pending) ∧
    (none ∈ (resolveAll [(["xyz"], "X")] [] [none]).pending ∧
      alook (resolveAll [(["xyz"], "X")] [] [none]).pmap none = none) :=
  ⟨(C2_sentinel_not_short_circuited [(["ul"], "UL Books")] [] [none]
      (by decide) (by decide) (by decide)).1 "UL Books" (by decide),
   (C2_sentinel_not_short_circuited [(["xyz"], "X")] [] [none]
      (by decide) (by decide) (by decide)).2 (by decide)⟩

/-! ## Claim C10 -/

/-- C10: with `--force-normalize`, the run starts from an empty
in-memory publisher cache — its entire outcome is independent of the
loaded durable publisher cache file — and the durable publisher cache
written at run end holds only names resolved during this run: any name
not carried by a record of this run (in particular every previously
cached name not encountered now) is absent from it. -/
theorem C10_force_normalize (cfg : RunConfig)
    (files extOrd : List FileEnv) (mc0 : MetaCache)
    (pcFile pcFile2 : PubCache) (rules : List PubRule)
    (oracle : List (Option String) → Option PubCache)
    (hforce : cfg.forceNormalize = true)
    (hwf : ∀ c m, oracle c = some m → ∀ kv ∈ m, kv.1 ∈ c)
    (n : Option String)
    (hn : ∀ bm ∈ rawRecords cfg files extOrd mc0, bm.publisher ≠ n) :
    runPipelineOrd cfg files extOrd mc0 pcFile rules oracle =
      runPipelineOrd cfg files extOrd mc0 pcFile2 rules oracle ∧
    alook (runPipelineOrd cfg files extOrd mc0 pcFile rules oracle).pubCache
      n = none := by
  have hpc : ∀ pf : PubCache, pc0Of cfg pf = [] := by
    intro pf
    simp [pc0Of, hforce]
  constructor
  · simp only [runPipelineOrd, stOf, aiRanOf, aiResultsOf, hpc]
  · have hnotin : n ∉ allPublishersOf cfg files extOrd mc0 := by
      intro hmem
      rw [allPublishersOf, List.mem_dedup] at hmem
      rcases List.mem_map.mp hmem with ⟨bm, hbm, he⟩
      exact hn bm hbm he
    have hst : alook (stOf cfg files extOrd mc0 pcFile rules).pcache n
        = none := by
      rw [stOf, resolveAll_pcache_not_mem hnotin, hpc]
      rfl
    have hai : alook (aiResultsOf cfg files extOrd mc0 pcFile rules oracle)
        n = none := by
      rw [aiResultsOf]
      by_cases hr : aiRanOf cfg files extOrd mc0 pcFile rules = true
      · rw [if_pos hr]
        refine normalize_ai_none ?_
        intro c hc m hm kv hkv he
        have hk : kv.1 ∈ c := hwf c m hm kv hkv
        have hpend : kv.1 ∈ (stOf cfg files extOrd mc0 pcFile rules).pending :=
          mem_of_mem_chunks50 hc hk
        have hnodup : (allPublishersOf cfg files extOrd mc0).Nodup :=
          List.nodup_dedup _
        have := (resolveAll_pending_sub hnodup hpend).1
        rw [he] at this
        exact hnotin this
      · rw [if_neg hr]
        rfl
    show alook (dictUpdate (stOf cfg files extOrd mc0 pcFile rules).pcache
      (aiResultsOf cfg files extOrd mc0 pcFile rules oracle)) n = none
    rw [alook_dictUpdate_none hai]
    exact hst

/-- Witness for C10: a run with one file (publisher `A`) under
force-normalize drops the previously cached entry for `Old`. -/
theorem C10_force_normalize_witness :
    (runPipelineOrd ⟨false, true, false, false, false⟩
        [⟨"/d/a.epub", "a.epub", some 0, some ⟨"T", [], some "A"⟩, some 0⟩]
        [⟨"/d/a.epub", "a.epub", some 0, some ⟨"T", [], some "A"⟩, some 0⟩]
        [] [(some "Old", "Old Canon")] [] (fun _ => none) =
      runPipelineOrd ⟨false, true, false, false, false⟩
        [⟨"/d/a.epub", "a.epub", some 0, some ⟨"T", [], some "A"⟩, some 0⟩]
        [⟨"/d/a.epub", "a.epub", some 0, some ⟨"T", [], some "A"⟩, some 0⟩]
        [] [] [] (fun _ => none)) ∧
    alook (runPipelineOrd ⟨false, true, false, false, false⟩
        [⟨"/d/a.epub", "a.epub", some 0, some ⟨"T", [], some "A"⟩, some 0⟩]
        [⟨"/d/a.epub", "a.epub", some 0, some ⟨"T", [], some "A"⟩, some 0⟩]
        [] [(some "Old", "Old Canon")] [] (fun _ => none)).pubCache
      (some "Old") = none :=
  C10_force_normalize ⟨false, true, false, false, false⟩
    [⟨"/d/a.epub", "a.epub", some 0, some ⟨"T", [], some "A"⟩, some 0⟩]
    [⟨"/d/a.epub", "a.epub", some 0, some ⟨"T", [], some "A"⟩, some 0⟩]
    [] [(some "Old", "Old Canon")] [] [] (fun _ => none) rfl
    (by intro c m hm; cases hm)
    (some "Old") (by decide)

/-! ## Claim C3 -/

theorem mem_dictUpdate {α β : Type} [DecidableEq α]
    {d m : List (α × β)} {kv : α × β} (h : kv ∈ dictUpdate d m) :
    kv ∈ m ∨ kv ∈ d := by
  induction m generalizing d with
  | nil => exact Or.inr h
  | cons x t ih =>
    rcases ih h with hm | hd
    · exact Or.inl (List.mem_cons_of_mem _ hm)
    · rcases List.mem_cons.mp hd with rfl | hd2
      · exact Or.inl (List.mem_cons_self _ _)
      · exact Or.inr hd2

theorem mem_foldl_update
    {oracle : List (Option String) → Option PubCache}
    {cs : List (List (Option String))} {kv : Option String × String} :
    ∀ {acc : PubCache},
      kv ∈ cs.foldl (fun a c => dictUpdate a ((oracle c).getD [])) acc →
      (∃ c ∈ cs, ∃ m, oracle c = some m ∧ kv ∈ m) ∨ kv ∈ acc := by
  induction cs with
  | nil => intro acc h; exact Or.inr h
  | cons c rest ih =>
    intro acc h
    rcases ih h with hrest | hacc
    · rcases hrest with ⟨c2, hc2, m2, hm2, hkv2⟩
      exact Or.inl ⟨c2, List.mem_cons_of_mem _ hc2, m2, hm2, hkv2⟩
    · rcases mem_dictUpdate hacc with hm | hd
      · cases ho : oracle c with
        | none => rw [ho] at hm; cases hm
        | some m =>
          rw [ho] at hm
          exact Or.inl ⟨c, List.mem_cons_self _ _, m, ho, hm⟩
      · exact Or.inr hd

theorem nodup_keys_unique {α β : Type} [DecidableEq α]
    {m : List (α × β)} (hnd : (m.map Prod.fst).Nodup) {k : α} {a b : β}
    (h1 : (k, a) ∈ m) (h2 : (k, b) ∈ m) : a = b := by
  induction m with
  | nil => cases h1
  | cons kv t ih =>
    simp only [List.map_cons, List.nodup_cons] at hnd
    rcases List.mem_cons.mp h1 with he1 | ht1 <;>
      rcases List.mem_cons.mp h2 with he2 | ht2
    · rw [← he2] at he1
      simpa using he1
    · exfalso
      apply hnd.1
      rw [← he1]
      exact List.mem_map.mpr ⟨(k, b), ht2, rfl⟩
    · exfalso
      apply hnd.1
      rw [← he2]
      exact List.mem_map.mpr ⟨(k, a), ht1, rfl⟩
    · exact ih hnd.2 ht1 ht2

theorem alook_dictUpdate_consistent {α β : Type} [DecidableEq α]
    {m : List (α × β)} {k : α} {v : β}
    (h : alook m k = some v) (hcons : ∀ kv ∈ m, kv.1 = k → kv.2 = v) :
    ∀ d : List (α × β), alook (dictUpdate d m) k = some v := by
  induction m with
  | nil => cases h
  | cons kv t ih =>
    intro d
    obtain ⟨a, b⟩ := kv
    show alook (dictUpdate (aset d a b) t) k = some v
    have htail : ∀ x ∈ t, x.1 = k → x.2 = v :=
      fun x hx he => hcons x (List.mem_cons_of_mem _ hx) he
    by_cases hk : a = k
    · have hb : b = v := hcons (a, b) (List.mem_cons_self _ _) hk
      cases ht : alook t k with
      | none =>
        rw [alook_dictUpdate_none ht]
        simp [aset, hk, hb]
      | some w =>
        have hw : w = v := htail (k, w) (alook_eq_some_mem ht) rfl
        exact ih (by rw [ht, hw]) htail (aset d a b)
    · rw [alook_cons, if_neg hk] at h
      exact ih h htail (aset d a b)

/-- C3: chunked external fallback with partial failure.  First part: a
name of a chunk that errored, or that a successful chunk's response
omitted, keeps its raw value as `publisher_normalized` in every catalog
entry carrying it and is absent from the publisher cache saved at run
end.  Second part: when the fallback ran, every binding returned by a
successful chunk is written into both the in-run map (`publisher_map`)
and the durable publisher cache. -/
theorem C3_chunk_failure (cfg : RunConfig) (files extOrd : List FileEnv)
    (mc0 : MetaCache) (pcFile : PubCache) (rules : List PubRule)
    (oracle : List (Option String) → Option PubCache)
    (hwf : ∀ c m, oracle c = some m → ∀ kv ∈ m, kv.1 ∈ c)
    (hwfnd : ∀ c m, oracle c = some m → (m.map Prod.fst).Nodup) :
    (∀ c ∈ chunks50
        (runPipelineOrd cfg files extOrd mc0 pcFile rules oracle).pendingAI,
      ∀ n ∈ c, (∀ m, oracle c = some m → ∀ v, (n, v) ∉ m) →
        (∀ fn e,
          alook (runPipelineOrd cfg files extOrd mc0 pcFile rules
            oracle).catalog fn = some e →
          e.publisher = n → e.publisher_normalized = n) ∧
        alook (runPipelineOrd cfg files extOrd mc0 pcFile rules
          oracle).pubCache n = none) ∧
    (aiRanOf cfg files extOrd mc0 pcFile rules = true →
      ∀ c ∈ chunks50
        (runPipelineOrd cfg files extOrd mc0 pcFile rules oracle).pendingAI,
      ∀ m, oracle c = some m → ∀ n v, (n, v) ∈ m →
        alook (runPipelineOrd cfg files extOrd mc0 pcFile rules
          oracle).pubMap n = some v ∧
        alook (runPipelineOrd cfg files extOrd mc0 pcFile rules
          oracle).pubCache n = some v) := by
  have hpubs_nd : (allPublishersOf cfg files extOrd mc0).Nodup :=
    List.nodup_dedup _
  have hpend_eq : (runPipelineOrd cfg files extOrd mc0 pcFile rules
      oracle).pendingAI = (stOf cfg files extOrd mc0 pcFile rules).pending :=
    rfl
  have hpend_nd : (stOf cfg files extOrd mc0 pcFile rules).pending.Nodup := by
    rw [stOf, resolveAll_pending hpubs_nd]
    exact hpubs_nd.filter _
  constructor
  · intro c hc n hn hmiss
    rw [hpend_eq] at hc
    have hnp : n ∈ (stOf cfg files extOrd mc0 pcFile rules).pending :=
      mem_of_mem_chunks50 hc hn
    obtain ⟨hnpubs, hres⟩ := resolveAll_pending_sub hpubs_nd hnp
    have hainone : alook
        (aiResultsOf cfg files extOrd mc0 pcFile rules oracle) n = none := by
      rw [aiResultsOf]
      by_cases hr : aiRanOf cfg files extOrd mc0 pcFile rules = true
      · rw [if_pos hr]
        refine normalize_ai_none ?_
        intro c2 hc2 m2 hm2 kv hkv he
        have hkn : n ∈ c2 := he ▸ hwf c2 m2 hm2 kv hkv
        have hceq : c = c2 := chunks50_disjoint hpend_nd hc hc2 hn hkn
        subst hceq
        refine hmiss m2 hm2 kv.2 ?_
        have : kv = (kv.1, kv.2) := rfl
        rw [this, he] at hkv
        exact hkv
      · rw [if_neg hr]
        rfl
    have hcache : alook (runPipelineOrd cfg files extOrd mc0 pcFile rules
        oracle).pubCache n = none := by
      show alook (dictUpdate (stOf cfg files extOrd mc0 pcFile rules).pcache
        (aiResultsOf cfg files extOrd mc0 pcFile rules oracle)) n = none
      rw [alook_dictUpdate_none hainone, stOf,
        resolveAll_pcache_mem hpubs_nd hnpubs]
      exact hres
    have hmap : alook (dictUpdate (stOf cfg files extOrd mc0 pcFile rules).pmap
        (aiResultsOf cfg files extOrd mc0 pcFile rules oracle)) n = none := by
      rw [alook_dictUpdate_none hainone, stOf,
        resolveAll_pmap_mem hpubs_nd hnpubs]
      exact hres
    refine ⟨?_, hcache⟩
    intro fn e he hpub
    have he2 : alook (buildCatalog
        (dictUpdate (stOf cfg files extOrd mc0 pcFile rules).pmap
          (aiResultsOf cfg files extOrd mc0 pcFile rules oracle))
        (rawRecords cfg files extOrd mc0)) fn = some e := he
    rcases alook_buildCatalog_entry he2 with ⟨bm, _, _, hassemble⟩
    subst hassemble
    have hbmpub : bm.publisher = n := hpub
    show (assembleEntry _ bm).publisher_normalized = n
    simp [assembleEntry, hbmpub, hmap]
  · intro hAI c hc m hm n v hkv
    rw [hpend_eq] at hc
    have haisome : alook
        (aiResultsOf cfg files extOrd mc0 pcFile rules oracle) n = some v := by
      rw [aiResultsOf, if_pos hAI]
      exact normalize_ai_some hpend_nd hwf hc hm (hwfnd c m hm) hkv
    have hn : n ∈ c := hwf c m hm (n, v) hkv
    have hcons : ∀ kv2 ∈ aiResultsOf cfg files extOrd mc0 pcFile rules oracle,
        kv2.1 = n → kv2.2 = v := by
      intro kv2 hkv2 he
      rw [aiResultsOf, if_pos hAI] at hkv2
      rcases mem_foldl_update hkv2 with ⟨c2, hc2, m2, hm2, hkvm2⟩ | hnil
      · have hkn : n ∈ c2 := he ▸ hwf c2 m2 hm2 kv2 hkvm2
        have hceq : c = c2 := chunks50_disjoint hpend_nd hc hc2 hn hkn
        subst hceq
        rw [hm] at hm2
        injection hm2 with hm2
        subst hm2
        have : (n, kv2.2) ∈ m := by
          have hkv2eta : kv2 = (kv2.1, kv2.2) := rfl
          rw [hkv2eta, he] at hkvm2
          exact hkvm2
        exact nodup_keys_unique (hwfnd c m hm) this hkv
      · cases hnil
    constructor
    · exact alook_dictUpdate_consistent haisome hcons _
    · exact alook_dictUpdate_consistent haisome hcons _

/-- Concrete 51-file scenario for the C3 witness: 51 distinct publishers
yield a pending list of 51 names, hence two chunks (50 + 1). -/
def c3Files : List FileEnv :=
  (List.range 51).map (fun i =>
    ⟨"p" ++ toString i, "p" ++ toString i ++ ".pdf", some 0,
      some ⟨"T", [], some ("pub" ++ toString i)⟩, some 0⟩)

/-- Oracle for the C3 witness: errors on singleton chunks, resolves
every name of larger chunks to `"CANON"`. -/
def c3Oracle : List (Option String) → Option PubCache :=
  fun c =>
    if c.length = 1 then none
    else some (c.dedup.map (fun n => (n, "CANON")))

def c3Cfg : RunConfig := ⟨false, false, true, true, true⟩

def c3Run : RunResult :=
  runPipelineOrd c3Cfg c3Files (toProcessOf c3Cfg c3Files []) [] [] []
    c3Oracle

theorem c3Oracle_wf :
    ∀ c m, c3Oracle c = some m → ∀ kv ∈ m, kv.1 ∈ c := by
  intro c m hm kv hkv
  rw [c3Oracle] at hm
  by_cases hl : c.length = 1
  · rw [if_pos hl] at hm
    cases hm
  · rw [if_neg hl] at hm
    injection hm with hm
    subst hm
    rcases List.mem_map.mp hkv with ⟨n, hn, rfl⟩
    exact List.mem_dedup.mp hn

theorem c3Oracle_nd :
    ∀ c m, c3Oracle c = some m → (m.map Prod.fst).Nodup := by
  intro c m hm
  rw [c3Oracle] at hm
  by_cases hl : c.length = 1
  · rw [if_pos hl] at hm
    cases hm
  · rw [if_neg hl] at hm
    injection hm with hm
    subst hm
    have : (c.dedup.map (fun n => (n, "CANON"))).map Prod.fst = c.dedup := by
      have h2 : (Prod.fst ∘ fun n : Option String => (n, "CANON")) = id := rfl
      rw [List.map_map, h2, List.map_id]
    rw [this]
    exact List.nodup_dedup c

/-- Witness for C3: in the 51-publisher run the singleton chunk errors,
so `pub50` keeps its raw value in the catalog and is absent from the
saved publisher cache, while `pub0`, resolved by the successful first
chunk, is written into both the in-run map and the durable cache. -/
theorem C3_chunk_failure_witness :
    alook c3Run.pubCache (some "pub50") = none ∧
    (⟨"T", [], some "pub50", some "pub50"⟩ : CatEntry).publisher_normalized
      = some "pub50" ∧
    alook c3Run.pubMap (some "pub0") = some "CANON" ∧
    alook c3Run.pubCache (some "pub0") = some "CANON" := by
  have h := C3_chunk_failure c3Cfg c3Files (toProcessOf c3Cfg c3Files [])
    [] [] [] c3Oracle c3Oracle_wf c3Oracle_nd
  have ha := h.1 [some "pub50"] (by decide) (some "pub50") (by decide)
    (by
      intro m hm v
      rw [show c3Oracle [some "pub50"] = none from rfl] at hm
      cases hm)
  have hb := h.2 (by decide)
    ((List.range 50).map (fun i => some ("pub" ++ toString i)))
    (by decide)
    (((List.range 50).map (fun i => some ("pub" ++ toString i))).dedup.map
      (fun n => (n, "CANON")))
    (by decide) (some "pub0") "CANON" (by decide)
  exact ⟨ha.2,
    ha.1 "p50.pdf" ⟨"T", [], some "pub50", some "pub50"⟩ (by decide) rfl,
    hb.1, hb.2⟩

/-! ## Claim C9 -/

theorem dictUpdate_nil {α β : Type} [DecidableEq α]
    (d : List (α × β)) : dictUpdate d [] = d := rfl

theorem aiResultsOf_no_ai (cfg : RunConfig) (files extOrd : List FileEnv)
    (mc0 : MetaCache) (pcFile : PubCache) (rules : List PubRule)
    (oracle : List (Option String) → Option PubCache)
    (hai : cfg.useAI = false) :
    aiResultsOf cfg files extOrd mc0 pcFile rules oracle = [] := by
  rw [aiResultsOf, aiRanOf, hai]
  simp

theorem assembleEntry_congr {pm1 pm2 : PubCache} {bm : BookMeta}
    (h : alook pm1 bm.publisher = alook pm2 bm.publisher) :
    assembleEntry pm1 bm = assembleEntry pm2 bm := by
  simp [assembleEntry, h]

/-- C9: with external resolution disabled, the final catalog (as a map
from filename to entry) does not depend on scheduling: two runs over the
same directory whose cache-check order and extraction completion order
are arbitrary permutations of each other produce pointwise-equal
catalogs (the oracle may even differ, since it is never consulted).
Assumes the listing has distinct basenames and the loaded cache is
well-formed (each entry's stored record carries the basename of its
key), both invariants of caches this program writes. -/
theorem C9_scheduling_independence (cfg : RunConfig)
    (files1 files2 ext1 ext2 : List FileEnv) (mc0 : MetaCache)
    (pcFile : PubCache) (rules : List PubRule)
    (oracle1 oracle2 : List (Option String) → Option PubCache)
    (hai : cfg.useAI = false)
    (hperm : files1.Perm files2)
    (he1 : ext1.Perm (toProcessOf cfg files1 mc0))
    (he2 : ext2.Perm (toProcessOf cfg files2 mc0))
    (hnames : (files1.map (fun f => f.filename)).Nodup)
    (hwfc : ∀ f ∈ files1, ∀ e, alook mc0 f.path = some e →
      e.metadata.filename = f.filename) :
    ∀ fn,
      alook (runPipelineOrd cfg files1 ext1 mc0 pcFile rules
        oracle1).catalog fn =
      alook (runPipelineOrd cfg files2 ext2 mc0 pcFile rules
        oracle2).catalog fn := by
  intro fn
  have hnames2 : (files2.map (fun f => f.filename)).Nodup :=
    (hperm.map _).nodup hnames
  have hwfc2 : ∀ f ∈ files2, ∀ e, alook mc0 f.path = some e →
      e.metadata.filename = f.filename :=
    fun f hf => hwfc f (hperm.mem_iff.mpr hf)
  have hraw1 : (rawRecords cfg files1 ext1 mc0).Perm
      (files1.filterMap (contrib cfg mc0)) :=
    rawRecords_perm_ord cfg mc0 files1 ext1 he1
  have hraw2 : (rawRecords cfg files2 ext2 mc0).Perm
      (files2.filterMap (contrib cfg mc0)) :=
    rawRecords_perm_ord cfg mc0 files2 ext2 he2
  have hraw12 : (rawRecords cfg files1 ext1 mc0).Perm
      (rawRecords cfg files2 ext2 mc0) :=
    hraw1.trans ((hperm.filterMap _).trans hraw2.symm)
  have hnd1 : ((rawRecords cfg files1 ext1 mc0).map
      (fun bm => bm.filename)).Nodup :=
    ((hraw1.map (fun bm => bm.filename)).symm).nodup
      (nodup_contrib_filenames hnames hwfc)
  have hnd2 : ((rawRecords cfg files2 ext2 mc0).map
      (fun bm => bm.filename)).Nodup :=
    ((hraw2.map (fun bm => bm.filename)).symm).nodup
      (nodup_contrib_filenames hnames2 hwfc2)
  have hpubs : ∀ p, p ∈ allPublishersOf cfg files2 ext2 mc0 →
      p ∈ allPublishersOf cfg files1 ext1 mc0 := by
    intro p hp
    rw [allPublishersOf, List.mem_dedup] at hp ⊢
    exact ((hraw12.map (fun m => m.publisher)).mem_iff).mpr hp
  have hpm : ∀ bm ∈ rawRecords cfg files2 ext2 mc0,
      alook (stOf cfg files2 ext2 mc0 pcFile rules).pmap bm.publisher =
      alook (stOf cfg files1 ext1 mc0 pcFile rules).pmap bm.publisher := by
    intro bm hbm
    have hp2 : bm.publisher ∈ allPublishersOf cfg files2 ext2 mc0 := by
      rw [allPublishersOf, List.mem_dedup]
      exact List.mem_map.mpr ⟨bm, hbm, rfl⟩
    have hp1 : bm.publisher ∈ allPublishersOf cfg files1 ext1 mc0 :=
      hpubs _ hp2
    have hndp1 : (allPublishersOf cfg files1 ext1 mc0).Nodup :=
      List.nodup_dedup _
    have hndp2 : (allPublishersOf cfg files2 ext2 mc0).Nodup :=
      List.nodup_dedup _
    rw [stOf, stOf, resolveAll_pmap_mem hndp2 hp2,
      resolveAll_pmap_mem hndp1 hp1]
  show alook (buildCatalog
      (dictUpdate (stOf cfg files1 ext1 mc0 pcFile rules).pmap
        (aiResultsOf cfg files1 ext1 mc0 pcFile rules oracle1))
      (rawRecords cfg files1 ext1 mc0)) fn =
    alook (buildCatalog
      (dictUpdate (stOf cfg files2 ext2 mc0 pcFile rules).pmap
        (aiResultsOf cfg files2 ext2 mc0 pcFile rules oracle2))
      (rawRecords cfg files2 ext2 mc0)) fn
  rw [aiResultsOf_no_ai cfg files1 ext1 mc0 pcFile rules oracle1 hai,
    aiResultsOf_no_ai cfg files2 ext2 mc0 pcFile rules oracle2 hai,
    dictUpdate_nil, dictUpdate_nil,
    alook_buildCatalog_nodup hnd1 fn, alook_buildCatalog_nodup hnd2 fn]
  have hmapeq : (rawRecords cfg files2 ext2 mc0).map
      (fun bm => (bm.filename,
        assembleEntry (stOf cfg files2 ext2 mc0 pcFile rules).pmap bm)) =
    (rawRecords cfg files2 ext2 mc0).map
      (fun bm => (bm.filename,
        assembleEntry (stOf cfg files1 ext1 mc0 pcFile rules).pmap bm)) := by
    refine List.map_congr_left ?_
    intro bm hbm
    rw [assembleEntry_congr (hpm bm hbm)]
  rw [hmapeq]
  refine alook_perm (hraw12.map _) ?_ fn
  have hkeys : ((rawRecords cfg files1 ext1 mc0).map
      (fun bm => (bm.filename,
        assembleEntry (stOf cfg files1 ext1 mc0 pcFile rules).pmap bm))).map
      Prod.fst =
    (rawRecords cfg files1 ext1 mc0).map (fun bm => bm.filename) := by
    rw [List.map_map]
    rfl
  rw [hkeys]
  exact hnd1

def c9fA : FileEnv :=
  ⟨"/d/a.epub", "a.epub", some 1, some ⟨"TA", [], some "O'Reilly"⟩, some 1⟩

def c9fB : FileEnv :=
  ⟨"/d/b.pdf", "b.pdf", some 2, some ⟨"TB", [], some "Packt"⟩, some 2⟩

def c9cfg : RunConfig := ⟨false, false, false, true, true⟩

def c9rules : List PubRule := [(["reilly"], "ORM")]

/-- Witness for C9: two runs over the same two files with reversed
listing order, reversed extraction completion order and different
(never-consulted) oracles give the same catalog entry. -/
theorem C9_scheduling_independence_witness :
    alook (runPipelineOrd c9cfg [c9fA, c9fB] [c9fB, c9fA] [] [] c9rules
      (fun _ => none)).catalog "a.epub" =
    alook (runPipelineOrd c9cfg [c9fB, c9fA] [c9fA, c9fB] [] [] c9rules
      (fun _ => some [])).catalog "a.epub" :=
  C9_scheduling_independence c9cfg [c9fA, c9fB] [c9fB, c9fA] [c9fB, c9fA]
    [c9fA, c9fB] [] [] c9rules (fun _ => none) (fun _ => some []) rfl
    (by decide) (by decide) (by decide) (by decide)
    (by
      intro f hf e he
      rw [alook_nil] at he
      cases he)
    "a.epub"

/-! ## Claim C4 -/

def c4cfg : RunConfig := ⟨false, false, false, false, false⟩

/-- A file whose extraction deterministically fails (e.g. a corrupt
PDF): listed, never cached. -/
def c4fx : FileEnv := ⟨"/d/x.pdf", "x.pdf", some 0, none, some 0⟩

def c4run1 : RunResult := runPipeline c4cfg [c4fx] [] [] [] (fun _ => none)

/-- C4 counterexample: after a first run over a directory containing one
file whose extraction fails, a second run with unchanged filesystem and
the caches written by the first run still classifies that file MISS and
hands it to the extraction pool again — the second run does not perform
zero extraction work, and not every file is a HIT. -/
theorem C4_counterexample :
    (runPipeline c4cfg [c4fx] c4run1.metaCache c4run1.pubCache []
      (fun _ => none)).toProcess = ["/d/x.pdf"] := by
  decide

theorem process_file_none_iff {f : FileEnv} :
    process_file f = none ↔ f.extractResult = none := by
  rw [process_file]
  cases f.extractResult <;> simp

theorem missFun_true_iff {mc0 : MetaCache} {f : FileEnv} :
    missFun mc0 f = true ↔
      check_file_cache f.checkMtime (alook mc0 f.path) = .miss := by
  rw [missFun]
  exact decide_eq_true_iff

theorem missFun_false_hit {mc0 : MetaCache} {f : FileEnv}
    (h : missFun mc0 f = false) :
    ∃ m, check_file_cache f.checkMtime (alook mc0 f.path) = .hit m := by
  cases hc : check_file_cache f.checkMtime (alook mc0 f.path) with
  | hit m => exact ⟨m, rfl⟩
  | miss =>
    rw [missFun_true_iff.mpr hc] at h
    cases h

/-- When no key of the durable pcache run 2 starts from resolves
differently: resolving against the cache a resolver run produced gives
the same answer as resolving against the cache it started from. -/
theorem resolveName_idem {rules : List PubRule} {pc0 : PubCache}
    {names : List (Option String)} {p : Option String}
    (hnd : names.Nodup) (hp : p ∈ names) :
    resolveName rules (resolveAll rules pc0 names).pcache p =
      resolveName rules pc0 p := by
  rw [resolveName, resolveAll_pcache_mem hnd hp]
  cases hr : resolveName rules pc0 p with
  | some v => rfl
  | none =>
    rw [resolveName] at hr
    cases hal : alook pc0 p with
    | some v => rw [hal] at hr; cases hr
    | none => rw [hal] at hr; exact hr

theorem buildCatalog_lookup_congr {pm1 pm2 : PubCache}
    {raw1 raw2 : List BookMeta} (hperm : raw1.Perm raw2)
    (hnd1 : (raw1.map (fun bm => bm.filename)).Nodup)
    (hnd2 : (raw2.map (fun bm => bm.filename)).Nodup)
    (hpm : ∀ bm ∈ raw2, alook pm2 bm.publisher = alook pm1 bm.publisher) :
    ∀ fn, alook (buildCatalog pm1 raw1) fn =
      alook (buildCatalog pm2 raw2) fn := by
  intro fn
  rw [alook_buildCatalog_nodup hnd1 fn, alook_buildCatalog_nodup hnd2 fn]
  have hmapeq : raw2.map (fun bm => (bm.filename, assembleEntry pm2 bm)) =
      raw2.map (fun bm => (bm.filename, assembleEntry pm1 bm)) := by
    refine List.map_congr_left ?_
    intro bm hbm
    rw [assembleEntry_congr (hpm bm hbm)]
  rw [hmapeq]
  refine (alook_perm (hperm.map _) ?_ fn).symm.symm
  have hkeys : (raw1.map (fun bm => (bm.filename, assembleEntry pm1 bm))).map
      Prod.fst = raw1.map (fun bm => bm.filename) := by
    rw [List.map_map]
    rfl
  rw [hkeys]
  exact hnd1

theorem missFun_eval (mc : MetaCache) (f : FileEnv) :
    missFun mc f =
      decide (check_file_cache f.checkMtime (alook mc f.path) = .miss) := rfl

theorem missFun_congr {mc1 mc2 : MetaCache} {f : FileEnv}
    (h : alook mc1 f.path = alook mc2 f.path) :
    missFun mc1 f = missFun mc2 f := by
  unfold missFun
  rw [h]

/-- C4 amended: running the pipeline twice with no filesystem changes,
no force flags and external resolution disabled yields a pointwise
identical catalog, and in the second run a file is MISS exactly when it
was MISS in the first run *and* its extraction fails (so it was never
cached): the second run re-extracts exactly the failed files, and every
file that produced a record or a hit in the first run is a HIT. -/
theorem C4_idempotence_amended (cfg : RunConfig) (files : List FileEnv)
    (mc0 : MetaCache) (pcFile : PubCache) (rules : List PubRule)
    (oracle1 oracle2 : List (Option String) → Option PubCache)
    (hfr : cfg.forceReload = false) (hfn : cfg.forceNormalize = false)
    (hai : cfg.useAI = false)
    (hpaths : (files.map (fun f => f.path)).Nodup)
    (hnames : (files.map (fun f => f.filename)).Nodup)
    (hstable : ∀ f ∈ files, f.commitMtime = f.checkMtime ∧
      (f.checkMtime = none → f.extractResult = none))
    (hwfc : ∀ f ∈ files, ∀ e, alook mc0 f.path = some e →
      e.metadata.filename = f.filename) :
    (∀ f ∈ files,
      missFun (runPipeline cfg files mc0 pcFile rules oracle1).metaCache f =
        (missFun mc0 f && f.extractResult.isNone)) ∧
    (runPipeline cfg files
        (runPipeline cfg files mc0 pcFile rules oracle1).metaCache
        (runPipeline cfg files mc0 pcFile rules oracle1).pubCache
        rules oracle2).toProcess =
      (files.filter (fun f => missFun mc0 f && f.extractResult.isNone)).map
        (fun f => f.path) ∧
    (∀ fn, alook (runPipeline cfg files
        (runPipeline cfg files mc0 pcFile rules oracle1).metaCache
        (runPipeline cfg files mc0 pcFile rules oracle1).pubCache
        rules oracle2).catalog fn =
      alook (runPipeline cfg files mc0 pcFile rules oracle1).catalog fn) := by
  have hfr' : ¬cfg.forceReload = true := by rw [hfr]; exact Bool.false_ne_true
  have htp1 : toProcessOf cfg files mc0 = files.filter (missFun mc0) := by
    rw [toProcessOf, if_neg hfr']
  have pathInj : ∀ g ∈ files, ∀ f ∈ files, g.path = f.path → g = f :=
    List.inj_on_of_nodup_map hpaths
  have hndtp : ((files.filter (missFun mc0)).map (fun f => f.path)).Nodup := by
    refine List.Sublist.nodup ?_ hpaths
    exact ((files.filter_sublist (p := missFun mc0))).map _
  have hmc1 : (runPipeline cfg files mc0 pcFile rules oracle1).metaCache =
      (extractPhase mc0 (files.filter (missFun mc0))).2 := by
    show (extractPhase mc0 (toProcessOf cfg files mc0)).2 = _
    rw [htp1]
  -- lookup of the cache written by run 1, per case
  have hmcA : ∀ f ∈ files, missFun mc0 f = false →
      alook (extractPhase mc0 (files.filter (missFun mc0))).2 f.path =
        alook mc0 f.path := by
    intro f hf hmiss
    refine extractPhase_snd_not_mem _ ?_
    intro g hg he
    have hgf : g = f := pathInj g (List.mem_of_mem_filter hg) f hf he
    rw [hgf] at hg
    have hgm := List.of_mem_filter hg
    rw [hmiss] at hgm
    cases hgm
  have hmcB : ∀ f ∈ files, missFun mc0 f = true →
      alook (extractPhase mc0 (files.filter (missFun mc0))).2 f.path =
        (match process_file f, f.commitMtime with
          | some bm, some t => some ⟨t, bm⟩
          | _, _ => alook mc0 f.path) := by
    intro f hf hmiss
    exact extractPhase_snd_mem mc0 hndtp (List.mem_filter.mpr ⟨hf, hmiss⟩)
  -- the stable-filesystem success case
  have hsucc : ∀ f ∈ files, ∀ r, f.extractResult = some r →
      missFun mc0 f = true →
      ∃ t, f.checkMtime = some t ∧
        alook (extractPhase mc0 (files.filter (missFun mc0))).2 f.path =
          some ⟨t, ⟨r.title, r.authors, r.publisher, f.filename⟩⟩ := by
    intro f hf r hex hmiss
    obtain ⟨hcommit, hvanish⟩ := hstable f hf
    cases hck : f.checkMtime with
    | none =>
      have := hvanish hck
      rw [hex] at this
      cases this
    | some t =>
      refine ⟨t, rfl, ?_⟩
      rw [hmcB f hf hmiss]
      have hpf : process_file f =
          some ⟨r.title, r.authors, r.publisher, f.filename⟩ := by
        rw [process_file, hex]
      rw [hpf, hcommit, hck]
  have hmcB1 : ∀ f ∈ files, missFun mc0 f = true → process_file f = none →
      alook (extractPhase mc0 (files.filter (missFun mc0))).2 f.path =
        alook mc0 f.path := by
    intro f hf hmiss hpf
    rw [hmcB f hf hmiss, hpf]
  -- (1) second-run classification
  have hclass : ∀ f ∈ files,
      missFun (extractPhase mc0 (files.filter (missFun mc0))).2 f =
        (missFun mc0 f && f.extractResult.isNone) := by
    intro f hf
    cases hm0 : missFun mc0 f with
    | false =>
      rw [missFun_congr (hmcA f hf hm0), hm0]
      rfl
    | true =>
      cases hex : f.extractResult with
      | none =>
        have hpf : process_file f = none := process_file_none_iff.mpr hex
        rw [missFun_congr (hmcB1 f hf hm0 hpf), hm0]
        rfl
      | some r =>
        obtain ⟨t, hck, hal⟩ := hsucc f hf r hex hm0
        have heq : missFun (extractPhase mc0 (files.filter (missFun mc0))).2 f =
            false := by
          rw [missFun_eval, hal, hck]
          simp [check_file_cache]
        rw [heq]
        rfl
  -- per-file contributions are unchanged in run 2
  have hcontrib : ∀ f ∈ files,
      contrib cfg (extractPhase mc0 (files.filter (missFun mc0))).2 f =
        contrib cfg mc0 f := by
    intro f hf
    rw [contrib, contrib, if_neg hfr', if_neg hfr']
    cases hm0 : missFun mc0 f with
    | false =>
      rw [hmcA f hf hm0]
    | true =>
      have hchk : check_file_cache f.checkMtime (alook mc0 f.path) = .miss :=
        missFun_true_iff.mp hm0
      cases hex : f.extractResult with
      | none =>
        have hpf : process_file f = none := process_file_none_iff.mpr hex
        rw [hmcB1 f hf hm0 hpf]
      | some r =>
        obtain ⟨t, hck, hal⟩ := hsucc f hf r hex hm0
        have hpf : process_file f =
            some ⟨r.title, r.authors, r.publisher, f.filename⟩ := by
          rw [process_file, hex]
        rw [hchk, hal, hck, hpf]
        simp [check_file_cache]
  -- cache written by run 1 is well-formed
  have hwfc1 : ∀ f ∈ files, ∀ e,
      alook (extractPhase mc0 (files.filter (missFun mc0))).2 f.path = some e →
      e.metadata.filename = f.filename := by
    intro f hf e he
    cases hm0 : missFun mc0 f with
    | false =>
      rw [hmcA f hf hm0] at he
      exact hwfc f hf e he
    | true =>
      cases hex : f.extractResult with
      | none =>
        rw [hmcB1 f hf hm0 (process_file_none_iff.mpr hex)] at he
        exact hwfc f hf e he
      | some r =>
        obtain ⟨t, _, hal⟩ := hsucc f hf r hex hm0
        rw [hal] at he
        injection he with he
        rw [← he]
  refine ⟨?_, ?_, ?_⟩
  · intro f hf
    rw [hmc1]
    exact hclass f hf
  · show (toProcessOf cfg files
        (runPipeline cfg files mc0 pcFile rules oracle1).metaCache).map
        (fun f => f.path) = _
    rw [hmc1, toProcessOf, if_neg hfr', List.filter_congr hclass]
  · -- identical catalog
    have hfn' : ¬cfg.forceNormalize = true := by
      rw [hfn]
      exact Bool.false_ne_true
    have hpc1 : (runPipeline cfg files mc0 pcFile rules oracle1).pubCache =
        (stOf cfg files (toProcessOf cfg files mc0) mc0 pcFile rules).pcache := by
      show dictUpdate _ _ = _
      rw [aiResultsOf_no_ai _ _ _ _ _ _ _ hai, dictUpdate_nil]
    intro fn
    rw [hmc1, hpc1]
    show alook (buildCatalog
        (dictUpdate (stOf cfg files
          (toProcessOf cfg files (extractPhase mc0 (files.filter (missFun mc0))).2)
          (extractPhase mc0 (files.filter (missFun mc0))).2
          (stOf cfg files (toProcessOf cfg files mc0) mc0 pcFile rules).pcache
          rules).pmap
          (aiResultsOf cfg files
            (toProcessOf cfg files (extractPhase mc0 (files.filter (missFun mc0))).2)
            (extractPhase mc0 (files.filter (missFun mc0))).2
            (stOf cfg files (toProcessOf cfg files mc0) mc0 pcFile rules).pcache
            rules oracle2))
        (rawRecords cfg files
          (toProcessOf cfg files (extractPhase mc0 (files.filter (missFun mc0))).2)
          (extractPhase mc0 (files.filter (missFun mc0))).2)) fn =
      alook (buildCatalog
        (dictUpdate (stOf cfg files (toProcessOf cfg files mc0) mc0 pcFile
          rules).pmap
          (aiResultsOf cfg files (toProcessOf cfg files mc0) mc0 pcFile rules
            oracle1))
        (rawRecords cfg files (toProcessOf cfg files mc0) mc0)) fn
    rw [aiResultsOf_no_ai _ _ _ _ _ _ _ hai,
      aiResultsOf_no_ai _ _ _ _ _ _ _ hai, dictUpdate_nil, dictUpdate_nil]
    have hraw1 : (rawRecords cfg files (toProcessOf cfg files mc0) mc0).Perm
        (files.filterMap (contrib cfg mc0)) :=
      rawRecords_perm cfg mc0 files
    have hraw2 : (rawRecords cfg files
        (toProcessOf cfg files (extractPhase mc0 (files.filter (missFun mc0))).2)
        (extractPhase mc0 (files.filter (missFun mc0))).2).Perm
        (files.filterMap
          (contrib cfg (extractPhase mc0 (files.filter (missFun mc0))).2)) :=
      rawRecords_perm cfg _ files
    have hfmeq : files.filterMap
        (contrib cfg (extractPhase mc0 (files.filter (missFun mc0))).2) =
        files.filterMap (contrib cfg mc0) :=
      List.filterMap_congr hcontrib
    have hperm21 : (rawRecords cfg files
        (toProcessOf cfg files (extractPhase mc0 (files.filter (missFun mc0))).2)
        (extractPhase mc0 (files.filter (missFun mc0))).2).Perm
        (rawRecords cfg files (toProcessOf cfg files mc0) mc0) := by
      refine hraw2.trans ?_
      rw [hfmeq]
      exact hraw1.symm
    have hnd1 : ((rawRecords cfg files (toProcessOf cfg files mc0) mc0).map
        (fun bm => bm.filename)).Nodup :=
      ((hraw1.map (fun bm => bm.filename)).symm).nodup
        (nodup_contrib_filenames hnames hwfc)
    have hnd2 : ((rawRecords cfg files
        (toProcessOf cfg files (extractPhase mc0 (files.filter (missFun mc0))).2)
        (extractPhase mc0 (files.filter (missFun mc0))).2).map
        (fun bm => bm.filename)).Nodup :=
      ((hraw2.map (fun bm => bm.filename)).symm).nodup
        (nodup_contrib_filenames hnames hwfc1)
    have hndp1 : (allPublishersOf cfg files (toProcessOf cfg files mc0)
        mc0).Nodup := List.nodup_dedup _
    have hndp2 : (allPublishersOf cfg files
        (toProcessOf cfg files (extractPhase mc0 (files.filter (missFun mc0))).2)
        (extractPhase mc0 (files.filter (missFun mc0))).2).Nodup :=
      List.nodup_dedup _
    refine buildCatalog_lookup_congr hperm21 hnd2 hnd1 ?_ fn
    intro bm hbm
    have hp1 : bm.publisher ∈ allPublishersOf cfg files
        (toProcessOf cfg files mc0) mc0 := by
      rw [allPublishersOf, List.mem_dedup]
      exact List.mem_map.mpr ⟨bm, hbm, rfl⟩
    have hp2 : bm.publisher ∈ allPublishersOf cfg files
        (toProcessOf cfg files (extractPhase mc0 (files.filter (missFun mc0))).2)
        (extractPhase mc0 (files.filter (missFun mc0))).2 := by
      rw [allPublishersOf, List.mem_dedup]
      exact ((hperm21.map (fun m => m.publisher)).mem_iff).mpr
        (List.mem_map.mpr ⟨bm, hbm, rfl⟩)
    rw [stOf, stOf, resolveAll_pmap_mem hndp1 hp1,
      resolveAll_pmap_mem hndp2 hp2]
    have hpcc : pc0Of cfg
        (resolveAll rules (pc0Of cfg pcFile)
          (allPublishersOf cfg files (toProcessOf cfg files mc0) mc0)).pcache =
        (resolveAll rules (pc0Of cfg pcFile)
          (allPublishersOf cfg files (toProcessOf cfg files mc0) mc0)).pcache := by
      rw [pc0Of, if_neg hfn']
    rw [hpcc]
    exact (resolveName_idem hndp1 hp1).symm

def c4fA : FileEnv :=
  ⟨"/d/a.epub", "a.epub", some 1, some ⟨"TA", [], some "P"⟩, some 1⟩

/-- Witness for the amended C4 at a concrete directory with one
successfully extracted file and one failing file. -/
theorem C4_idempotence_amended_witness :
    (missFun (runPipeline c4cfg [c4fA, c4fx] [] [] []
        (fun _ => none)).metaCache c4fx =
      (missFun [] c4fx && c4fx.extractResult.isNone)) ∧
    ((runPipeline c4cfg [c4fA, c4fx]
        (runPipeline c4cfg [c4fA, c4fx] [] [] [] (fun _ => none)).metaCache
        (runPipeline c4cfg [c4fA, c4fx] [] [] [] (fun _ => none)).pubCache
        [] (fun _ => none)).toProcess =
      ([c4fA, c4fx].filter
        (fun f => missFun [] f && f.extractResult.isNone)).map
        (fun f => f.path)) ∧
    (alook (runPipeline c4cfg [c4fA, c4fx]
        (runPipeline c4cfg [c4fA, c4fx] [] [] [] (fun _ => none)).metaCache
        (runPipeline c4cfg [c4fA, c4fx] [] [] [] (fun _ => none)).pubCache
        [] (fun _ => none)).catalog "a.epub" =
      alook (runPipeline c4cfg [c4fA, c4fx] [] [] []
        (fun _ => none)).catalog "a.epub") := by
  have h := C4_idempotence_amended c4cfg [c4fA, c4fx] [] [] []
    (fun _ => none) (fun _ => none) rfl rfl rfl (by decide) (by decide)
    (by decide)
    (by
      intro f hf e he
      rw [alook_nil] at he
      cases he)
  exact ⟨h.1 c4fx (by decide), h.2.1, h.2.2 "a.epub"⟩

/-! ## Claim C5: exit paths and the `finally` block

`main` (read_meta.py:271-443) loads the two caches (271-276), loads the
rules CSV (278), then enters `try:` (280).  `except KeyboardInterrupt`
(436-438) catches a user interruption inside the try block, and
`finally:` (439-443) saves both in-memory caches; the catalog output
file is written as the last statement inside the try (430-434).  The
model below replays the try block as its sequence of cache-mutating
events (extraction commits in completion order, resolver writes in loop
order, and the single bulk `update` after the external fallback,
read_meta.py:360) and distinguishes an interruption inside the try block
(`inTry j`: j events committed, `finally` runs) from one that fires
after the caches are loaded but before the try block is entered, i.e.
during the rules load at line 278 (`duringSetup`: the exception
propagates and no save happens). -/

abbrev CachePair := MetaCache × PubCache

def liftMeta (e : MetaCache → MetaCache) : CachePair → CachePair :=
  fun s => (e s.1, s.2)

def liftPub (e : PubCache → PubCache) : CachePair → CachePair :=
  fun s => (s.1, e s.2)

/-- Metadata-cache commits of the extraction loop, in completion
order (read_meta.py:316-322). -/
def commitEvents : List FileEnv → List (MetaCache → MetaCache)
  | [] => []
  | f :: rest =>
    match process_file f, f.commitMtime with
    | some bm, some t =>
      (fun mc => aset mc f.path ⟨t, bm⟩) :: commitEvents rest
    | _, _ => commitEvents rest

/-- Publisher-cache writes of the resolver loop, in loop order
(read_meta.py:349). -/
def resolveEvents (rules : List PubRule) :
    List (Option String) → PubCache → List (PubCache → PubCache)
  | [], _ => []
  | n :: rest, pc =>
    match alook pc n with
    | some _ => resolveEvents rules rest pc
    | none =>
      match (bestRule rules (matchTarget n)).2 with
      | some c =>
        (fun p => aset p n c) :: resolveEvents rules rest (aset pc n c)
      | none => resolveEvents rules rest pc

/-- All cache-mutating events of the try block, in program order. -/
def runEvents (cfg : RunConfig) (files : List FileEnv) (mc0 : MetaCache)
    (pcFile : PubCache) (rules : List PubRule)
    (oracle : List (Option String) → Option PubCache) :
    List (CachePair → CachePair) :=
  (commitEvents (toProcessOf cfg files mc0)).map liftMeta ++
    ((resolveEvents rules
        (allPublishersOf cfg files (toProcessOf cfg files mc0) mc0)
        (pc0Of cfg pcFile)).map liftPub ++
      (if aiRanOf cfg files (toProcessOf cfg files mc0) mc0 pcFile rules then
        [liftPub (fun p => dictUpdate p
          (normalize_publishers_batch_ai oracle
            (stOf cfg files (toProcessOf cfg files mc0) mc0 pcFile
              rules).pending))]
      else []))

/-- The two caches after the first `j` events of the try block. -/
def cachesAfter (cfg : RunConfig) (files : List FileEnv) (mc0 : MetaCache)
    (pcFile : PubCache) (rules : List PubRule)
    (oracle : List (Option String) → Option PubCache) (j : Nat) :
    CachePair :=
  ((runEvents cfg files mc0 pcFile rules oracle).take j).foldl
    (fun s e => e s) (mc0, pc0Of cfg pcFile)

/-- Where a user interruption fires, if any: after the caches are
loaded but before the try block is entered (during the rules load,
line 278), or inside the try block after `j` committed events. -/
inductive InterruptPoint where
  | duringSetup
  | inTry (eventsDone : Nat)
  deriving DecidableEq, Repr

/-- What a run leaves on disk: the saved caches (`none` = the save never
ran) and whether the catalog output file was written. -/
structure ExecOutcome where
  savedMeta : Option MetaCache
  savedPub : Option PubCache
  outputWritten : Bool
  deriving DecidableEq, Repr

/-- The `finally` block (read_meta.py:439-443). -/
def saveCaches (s : CachePair) (out : Bool) : ExecOutcome :=
  ⟨some s.1, some s.2, out⟩

/-- Exit behaviour of `main` under an optional interruption: an
interruption during setup propagates before the try/finally exists; an
interruption inside the try block reaches `except` + `finally` with the
caches as of the interruption point and no catalog written; a normal
completion writes the catalog (430-434) and then runs `finally`. -/
def execModel (cfg : RunConfig) (files : List FileEnv) (mc0 : MetaCache)
    (pcFile : PubCache) (rules : List PubRule)
    (oracle : List (Option String) → Option PubCache)
    (intr : Option InterruptPoint) : ExecOutcome :=
  match intr with
  | some .duringSetup => ⟨none, none, false⟩
  | some (.inTry j) =>
    saveCaches (cachesAfter cfg files mc0 pcFile rules oracle j) false
  | none =>
    saveCaches (cachesAfter cfg files mc0 pcFile rules oracle
      (runEvents cfg files mc0 pcFile rules oracle).length) true

theorem foldl_map_liftMeta (es : List (MetaCache → MetaCache)) :
    ∀ (m : MetaCache) (p : PubCache),
      (es.map liftMeta).foldl (fun s e => e s) (m, p) =
        (es.foldl (fun m2 e => e m2) m, p) := by
  induction es with
  | nil => intro m p; rfl
  | cons e t ih => intro m p; exact ih (e m) p

theorem foldl_map_liftPub (es : List (PubCache → PubCache)) :
    ∀ (m : MetaCache) (p : PubCache),
      (es.map liftPub).foldl (fun s e => e s) (m, p) =
        (m, es.foldl (fun p2 e => e p2) p) := by
  induction es with
  | nil => intro m p; rfl
  | cons e t ih => intro m p; exact ih m (e p)

theorem commitEvents_fold :
    ∀ (l : List FileEnv) (mc : MetaCache),
      (commitEvents l).foldl (fun m e => e m) mc = (extractPhase mc l).2 := by
  intro l
  induction l with
  | nil => intro mc; rfl
  | cons f rest ih =>
    intro mc
    cases hpf : process_file f with
    | some bm =>
      cases hcm : f.commitMtime with
      | some t =>
        have hco : commitOne mc f = aset mc f.path ⟨t, bm⟩ := by
          simp [commitOne, hpf, hcm]
        simp [commitEvents, hpf, hcm, extractPhase, hco, ih]
      | none =>
        have hco : commitOne mc f = mc := by
          simp [commitOne, hpf, hcm]
        simp [commitEvents, hpf, hcm, extractPhase, hco, ih]
    | none =>
      have hco : commitOne mc f = mc := by
        simp [commitOne, hpf]
      simp [commitEvents, hpf, extractPhase, hco, ih]

theorem resolveEvents_fold (rules : List PubRule) :
    ∀ (names : List (Option String)) (st : ResolveState),
      (resolveEvents rules names st.pcache).foldl (fun p e => e p)
          st.pcache =
        (resolveList rules names st).pcache := by
  intro names
  induction names with
  | nil => intro st; rfl
  | cons n rest ih =>
    intro st
    cases hal : alook st.pcache n with
    | some v =>
      have h2 := ih ⟨aset st.pmap n v, st.pcache, st.pending⟩
      simp only [resolveEvents, resolveList, resolveStep, hal] at h2 ⊢
      exact h2
    | none =>
      cases hb : (bestRule rules (matchTarget n)).2 with
      | some c =>
        have h2 := ih ⟨aset st.pmap n c, aset st.pcache n c, st.pending⟩
        simp only [resolveEvents, resolveList, resolveStep, hal, hb] at h2 ⊢
        exact h2
      | none =>
        have h2 := ih ⟨st.pmap, st.pcache, st.pending ++ [n]⟩
        simp only [resolveEvents, resolveList, resolveStep, hal, hb] at h2 ⊢
        exact h2

/-- Running every event of the try block yields exactly the caches the
pipeline ends with. -/
theorem cachesAfter_total (cfg : RunConfig) (files : List FileEnv)
    (mc0 : MetaCache) (pcFile : PubCache) (rules : List PubRule)
    (oracle : List (Option String) → Option PubCache) :
    cachesAfter cfg files mc0 pcFile rules oracle
        (runEvents cfg files mc0 pcFile rules oracle).length =
      ((runPipeline cfg files mc0 pcFile rules oracle).metaCache,
       (runPipeline cfg files mc0 pcFile rules oracle).pubCache) := by
  rw [cachesAfter, List.take_length, runEvents, List.foldl_append,
    foldl_map_liftMeta, List.foldl_append, foldl_map_liftPub,
    commitEvents_fold]
  have hres := resolveEvents_fold rules
    (allPublishersOf cfg files (toProcessOf cfg files mc0) mc0)
    ⟨[], pc0Of cfg pcFile, []⟩
  rw [hres]
  show _ = ((extractPhase mc0 (toProcessOf cfg files mc0)).2,
    dictUpdate (stOf cfg files (toProcessOf cfg files mc0) mc0 pcFile
      rules).pcache
      (aiResultsOf cfg files (toProcessOf cfg files mc0) mc0 pcFile rules
        oracle))
  by_cases hr : aiRanOf cfg files (toProcessOf cfg files mc0) mc0 pcFile
      rules = true
  · rw [if_pos hr, aiResultsOf, if_pos hr]
    rfl
  · rw [if_neg hr, aiResultsOf, if_neg hr, dictUpdate_nil]
    rfl

/-- C5 counterexample: a user interruption that fires after the caches
are loaded (read_meta.py:271-276) but before the try block is entered —
i.e. while the rules CSV is being read at line 278 — escapes `main`
before the try/finally exists: neither cache is saved on that exit
path, although the caches were already loaded.  So it is not the case
that every exit path after the caches are loaded saves them. -/
theorem C5_counterexample :
    (execModel ⟨false, false, false, false, false⟩ [] [] [] []
      (fun _ => none) (some .duringSetup)).savedMeta = none ∧
    (execModel ⟨false, false, false, false, false⟩ [] [] [] []
      (fun _ => none) (some .duringSetup)).savedPub = none :=
  ⟨rfl, rfl⟩

/-- C5 amended: on every exit path once the try block is entered —
normal completion and user interruption alike — the `finally` block
saves both caches with exactly the entries committed before the exit
point: an interruption after `j` events persists the `j`-event state,
a normal completion persists precisely the caches the pipeline ends
with; and the catalog output file is written only on normal completion,
never when an interruption fired. -/
theorem C5_finally_persists (cfg : RunConfig) (files : List FileEnv)
    (mc0 : MetaCache) (pcFile : PubCache) (rules : List PubRule)
    (oracle : List (Option String) → Option PubCache) :
    (∀ j : Nat,
      execModel cfg files mc0 pcFile rules oracle (some (.inTry j)) =
        ⟨some (cachesAfter cfg files mc0 pcFile rules oracle j).1,
         some (cachesAfter cfg files mc0 pcFile rules oracle j).2,
         false⟩) ∧
    execModel cfg files mc0 pcFile rules oracle none =
      ⟨some (runPipeline cfg files mc0 pcFile rules oracle).metaCache,
       some (runPipeline cfg files mc0 pcFile rules oracle).pubCache,
       true⟩ ∧
    (∀ p : InterruptPoint,
      (execModel cfg files mc0 pcFile rules oracle (some p)).outputWritten
        = false) := by
  refine ⟨fun j => rfl, ?_, ?_⟩
  · show saveCaches (cachesAfter cfg files mc0 pcFile rules oracle
      (runEvents cfg files mc0 pcFile rules oracle).length) true = _
    rw [cachesAfter_total]
    rfl
  · intro p
    cases p <;> rfl

end ReadMeta
